import Mathlib

/-!
# Verification of the stash disk-backed blob cache

Shallow embedding of the `stash` Go package: the LRU blob cache
(`Cache`, from the source file defining `EntryStatus`/`Meta`/`Cache`
with busy/ready/deleted entries) and the chunk-aggregation layer
(`ChunkCache`).

Modelling conventions:
* Go `[]byte` values used as tags are `Option Bytes` (`none` = Go `nil`
  slice); `bytes.Equal` identifies `nil` with the empty slice, which
  `bytesEq` mirrors.
* File contents are abstracted to their byte count; the on-disk
  directory is the set (list) of file paths present.  The fingerprint
  `realFilePath` is hash-based and assumed collision free, so a path is
  modelled as the injective image of its key.  Staging files use fresh
  random (uuid) names, so a staging file created and then renamed or
  removed within one operation is collapsed into its net disk effect.
* Operations are modelled as they complete sequentially: a `Get` on a
  busy entry waits until the writer finishes, so in the
  one-operation-at-a-time semantics `waitStatus` returns the entry's
  current (resolved) status.
* Fallible filesystem steps inside `PutReaderWithTag` (the lazy reader,
  `writeTmpFile`, `os.Rename`) are driven by an explicit `PutIo`
  outcome parameter.  `os.Remove` of a tracked file succeeds exactly
  when the path is on disk, as for a real directory.
* The `for n+c.size > c.maxSize` eviction loop of `validate` makes no
  progress when the recency list is empty (Go `evictLast` returns `nil`
  without changing anything), i.e. it then never terminates.  The model
  runs the loop with fuel `c.list.length + 1`: every successful
  eviction shortens the list by one, so this fuel is exhausted only in
  states the Go loop repeats forever; the `VRes.diverge` result marks
  exactly the non-terminating executions.
-/

namespace Stash

/-- Byte strings (tag values, file contents are abstracted to sizes). -/
abbrev Bytes := List Nat

/-- Go `bytes.Equal`: a `nil` slice is equal to the empty slice. -/
def bytesEq (a b : Option Bytes) : Bool := a.getD [] == b.getD []

/-- The error values of the package (`errors.go` plus the chunk layer
errors `ErrChunkNotFound`, `ErrIncoherentTag` it uses); `ioErr` stands
for any wrapped filesystem error. -/
inductive Err
  | notFound
  | badDir
  | badSize
  | badCap
  | tooLarge
  | untagged
  | alreadyTagged
  | chunkNotFound
  | incoherentTag
  | ioErr
deriving Repr, DecidableEq

/-- `EntryStatus`. -/
inductive EntryStatus
  | busy
  | ready
  | deleted
deriving Repr, DecidableEq, BEq

/-- An on-disk path.  `realFilePath` maps a key to a fixed-length hash
filename (collision free by assumption), modelled by the injective
constructor `real`. -/
inductive FPath
  | real (key : String)
deriving Repr, DecidableEq

/-- `Meta`: the information about a cache entry. -/
structure Meta where
  key : String
  size : Int
  path : FPath
  tag : Option Bytes
  status : EntryStatus
deriving Repr, DecidableEq

/-- `Cache`: the blob cache.  `list` is the recency sequence, head =
most recently used; the Go key map `m` holds exactly the list members
keyed by `Meta.key`, so it is represented by lookup in `list`.  `disk`
is the set of managed files present in the storage directory. -/
structure Cache where
  maxSize : Int
  maxEntries : Int
  size : Int
  numEntries : Int
  hit : Int
  miss : Int
  list : List Meta
  disk : List FPath
deriving Repr, DecidableEq

/-- Lookup `c.m[key]`. -/
def Cache.findEntry (c : Cache) (key : String) : Option Meta :=
  c.list.find? (fun m => m.key == key)

/-- Removing the list element holding `key` (the map holds at most one). -/
def eraseKey (l : List Meta) (key : String) : List Meta :=
  l.eraseP (fun m => m.key == key)

/-- Adding a path to the directory (creating a file that may already exist). -/
def insertPath (d : List FPath) (p : FPath) : List FPath :=
  if p ∈ d then d else p :: d

/-- `list.MoveToFront(item)` for the element holding `key`. -/
def Cache.moveToFront (c : Cache) (key : String) : Cache :=
  match c.findEntry key with
  | some m => { c with list := m :: eraseKey c.list key }
  | none => c

/-- `SetTag`. -/
def Cache.setTag (c : Cache) (key : String) (tag : Option Bytes) : Cache × Option Err :=
  match c.findEntry key with
  | some m =>
    if m.tag.isNone then
      ({ c with list := c.list.map (fun x => if x.key == key then { x with tag := tag } else x) },
       none)
    else if bytesEq m.tag tag then (c, none)
    else (c, some .alreadyTagged)
  | none => (c, some .notFound)

/-- `GetTag` (returns the tag, or `ErrNotFound`; no state change). -/
def Cache.getTag (c : Cache) (key : String) : Option Bytes × Option Err :=
  match c.findEntry key with
  | some m => (m.tag, none)
  | none => (none, some .notFound)

/-- Result of `GetWithTag`. -/
structure GetRes where
  cache : Cache
  tag : Option Bytes
  size : Int
  err : Option Err
deriving Repr, DecidableEq

/-- `GetWithTag`.  Sequentially, `waitStatus` resolves to the entry's
current status.  A ready entry is moved to the front and opened; the
open succeeds exactly when its file is on disk (on failure the code
returns the error without counting a hit or a miss). -/
def Cache.getWithTag (c : Cache) (key : String) : GetRes :=
  match c.findEntry key with
  | some m =>
    if m.status == .ready then
      let c1 := c.moveToFront key
      if m.path ∈ c1.disk then
        { cache := { c1 with hit := c1.hit + 1 }, tag := m.tag, size := m.size, err := none }
      else
        { cache := c1, tag := none, size := 0, err := some .ioErr }
    else
      { cache := { c with miss := c.miss + 1 }, tag := none, size := 0, err := some .notFound }
  | none =>
    { cache := { c with miss := c.miss + 1 }, tag := none, size := 0, err := some .notFound }

/-- `DeleteIf`. -/
def Cache.deleteIf (c : Cache) (key : String) (pred : Option Bytes → Bool) :
    Cache × Bool × Option Err :=
  match c.findEntry key with
  | none => (c, false, some .notFound)
  | some m =>
    if pred m.tag then
      ({ c with size := c.size - m.size, numEntries := c.numEntries - 1,
                disk := c.disk.erase m.path, list := eraseKey c.list key },
       true, none)
    else (c, false, none)

/-- `Delete`. -/
def Cache.delete (c : Cache) (key : String) : Cache × Option Err :=
  match c.findEntry key with
  | none => (c, some .notFound)
  | some m =>
    ({ c with size := c.size - m.size, numEntries := c.numEntries - 1,
              disk := c.disk.erase m.path, list := eraseKey c.list key },
     none)

/-- `Clear`: reset all accounting and delete every managed (`.cache`)
file; managed files are exactly the `FPath` values. -/
def Cache.clearAll (c : Cache) : Cache :=
  { c with size := 0, numEntries := 0, hit := 0, miss := 0, list := [], disk := [] }

/-- `evictLast`: remove the least recently used entry; `os.Remove`
succeeds exactly when the file is present.  On an empty list the Go
code returns `nil` without doing anything. -/
def Cache.evictLast (c : Cache) : Cache × Option Err :=
  match c.list.getLast? with
  | none => (c, none)
  | some m =>
    if m.path ∈ c.disk then
      ({ c with size := c.size - m.size, numEntries := c.numEntries - 1,
                disk := c.disk.erase m.path, list := c.list.dropLast },
       none)
    else (c, some .ioErr)

/-- Result of the admission step: `diverge` marks the executions in
which the Go `for` loop of `validate` never terminates. -/
inductive VRes
  | diverge
  | ok (c : Cache)
  | fail (c : Cache) (e : Err)
deriving Repr, DecidableEq

/-- The `for n+c.size > c.maxSize { evictLast }` loop of `validate`,
run with explicit fuel.  Called with fuel `c.list.length + 1` this is
exact: each successful eviction shortens the list, and once the list is
empty `evictLast` changes nothing, so the Go loop either exits, fails,
or repeats one no-op state forever — which is precisely when the fuel
runs out while still over budget. -/
def Cache.sizeEvictLoop : Nat → Int → Cache → VRes
  | 0, n, c => if n + c.size > c.maxSize then .diverge else .ok c
  | fuel + 1, n, c =>
    if n + c.size > c.maxSize then
      match c.evictLast with
      | (c', none) => Cache.sizeEvictLoop fuel n c'
      | (c', some e) => .fail c' e
    else .ok c

/-- `validate`: the admission algorithm. -/
def Cache.validate (c : Cache) (path : FPath) (n : Int) : VRes :=
  if n > c.maxSize then
    .fail { c with disk := c.disk.erase path } .tooLarge
  else
    match Cache.sizeEvictLoop (c.list.length + 1) n c with
    | .diverge => .diverge
    | .fail c' e => .fail c' e
    | .ok c' =>
      if c'.numEntries > c'.maxEntries then
        match c'.evictLast with
        | (c'', none) => .ok c''
        | (c'', some e) => .fail c'' e
      else .ok c'

/-- `addElement`: register or replace the entry for `key` (replacement
updates the fields in place and moves the element to the front). -/
def Cache.addElement (c : Cache) (key : String) (tag : Option Bytes) (path : FPath)
    (length : Int) (s : EntryStatus) : Cache :=
  match c.findEntry key with
  | some m =>
    { c with size := c.size + (length - m.size),
             list := { m with tag := tag, size := length, path := path, status := s }
                       :: eraseKey c.list key }
  | none =>
    { c with numEntries := c.numEntries + 1, size := c.size + length,
             list := { key := key, tag := tag, size := length, path := path, status := s }
                       :: c.list }

/-- `updateElement`: update the entry's meta data in place (no
reordering); `ErrNotFound` when the key is gone. -/
def Cache.updateElement (c : Cache) (key : String) (tag : Option Bytes) (path : FPath)
    (length : Int) (s : EntryStatus) : Cache × Option Err :=
  match c.findEntry key with
  | some m =>
    ({ c with size := c.size + (length - m.size),
              list := c.list.map (fun x =>
                if x.key == key then
                  { x with key := key, tag := tag, size := length, path := path, status := s }
                else x) },
     none)
  | none => (c, some .notFound)

/-- `removeElement`: unlink `key` from index and list, marking the
removed meta `deleted` (returned; `none` when the key was absent). -/
def Cache.removeElement (c : Cache) (key : String) : Cache × Option Meta :=
  match c.findEntry key with
  | some m =>
    ({ c with size := c.size - m.size, numEntries := c.numEntries - 1,
              list := eraseKey c.list key },
     some { m with status := .deleted })
  | none => (c, none)

/-- The no-op test at the top of `PutReaderWithTag`: an existing entry
that resolves to ready and whose tag equals the supplied tag. -/
def Cache.isNoop (c : Cache) (key : String) (tag : Option Bytes) : Bool :=
  match c.findEntry key with
  | some m => m.status == .ready && bytesEq tag m.tag
  | none => false

/-- Outcome of the filesystem part of one `PutReaderWithTag` call:
the lazy reader may fail, `writeTmpFile` may fail, `os.Rename` may
fail, or the content (of `n` bytes) is staged and renamed into place. -/
inductive PutIo
  | readerFail
  | writeFail
  | renameFail
  | content (n : Nat)
deriving Repr, DecidableEq

/-- Result of a put: the completed state and returned error, the
marker that the admission loop never terminated, or the marker that
the call blocked forever (the reader-failure path calls `c.l.Lock()`
while the mutex is already held and never completes). -/
inductive PutRes
  | diverge
  | deadlock
  | done (c : Cache) (e : Option Err)
deriving Repr, DecidableEq

/-- `PutReaderWithTag`.  The staging file has a fresh uuid name and is
renamed onto (or removed before reaching) the final path within the
operation, so only its net disk effect appears: on `content` the final
path is created; on a validation failure the code removes the final
path (`validate` already removed it in the `TooLarge` case, making the
second remove a no-op) and unlinks the entry.  Error plumbing follows
the source exactly: the `writeTmpFile` error lands in the
function-level `err` and is returned at the `Err:` label, but the
`os.Rename` and `validate` checks declare if-scoped `err` variables,
so their `goto Err` returns the outer `err` — still `nil` — and those
failures complete with a nil error; the reader-failure path locks the
already-held mutex and never completes. -/
def Cache.putReaderWithTag (c : Cache) (key : String) (tag : Option Bytes) (io : PutIo) :
    PutRes :=
  let path := FPath.real key
  if c.isNoop key tag then .done c none
  else
    let c1 := c.addElement key tag path 0 .busy
    match io with
    | .readerFail => .deadlock
    | .writeFail => .done (c1.removeElement key).1 (some .ioErr)
    | .renameFail => .done (c1.removeElement key).1 none
    | .content n =>
      let c3 := { c1 with disk := insertPath c1.disk path }
      match c3.validate path (n : Int) with
      | .diverge => .diverge
      | .fail c4 _ =>
        .done (({ c4 with disk := c4.disk.erase path }).removeElement key).1 none
      | .ok c4 => .done (c4.updateElement key tag path (n : Int) .ready).1 none

/-- `Put` / `PutWithTag` on a byte buffer: the buffer reader never
fails, the content is the buffer, whose write may still fail on disk.
A fully successful buffer put is `putReaderWithTag … (.content n)`
with `n` the buffer length. -/
def Cache.putWithTag (c : Cache) (key : String) (tag : Option Bytes) (io : PutIo) : PutRes :=
  c.putReaderWithTag key tag io

/-- `New`: construct a cache over an existing directory holding the
stale managed files `d0`; validation of the bounds, then `Clear`. -/
def Cache.new (dirExists : Bool) (sz cnt : Int) (d0 : List FPath) : Except Err Cache :=
  if !dirExists then .error .badDir
  else if sz ≤ 0 then .error .badSize
  else if cnt ≤ 0 then .error .badCap
  else .ok (Cache.clearAll
    { maxSize := sz, maxEntries := cnt, size := 0, numEntries := 0,
      hit := 0, miss := 0, list := [], disk := d0 })

/-- Byte-wise lexicographic comparison of character lists (UTF-8 byte
order and code-point order agree), as used by Go's `sort.Strings`. -/
def charsLe : List Char → List Char → Bool
  | [], _ => true
  | _ :: _, [] => false
  | a :: as, b :: bs =>
    if a.toNat < b.toNat then true
    else if b.toNat < a.toNat then false
    else charsLe as bs

/-- Lexicographic string comparison. -/
def strLe (a b : String) : Bool := charsLe a.data b.data

/-- `strLe` as a relation. -/
def strLeP (a b : String) : Prop := strLe a b = true

instance : DecidableRel strLeP := fun a b => instDecidableEqBool (strLe a b) true

instance : IsTrans String strLeP where
  trans := by
    have key : ∀ a b c, charsLe a b = true → charsLe b c = true → charsLe a c = true := by
      intro a
      induction a with
      | nil => intro b c _ _; simp [charsLe]
      | cons x xs ih =>
        intro b c hab hbc
        cases b with
        | nil => simp [charsLe] at hab
        | cons y ys =>
          cases c with
          | nil => simp [charsLe] at hbc
          | cons z zs =>
            rcases Nat.lt_trichotomy x.toNat y.toNat with h1 | h1 | h1
            · rcases Nat.lt_trichotomy y.toNat z.toNat with h2 | h2 | h2
              · simp [charsLe, show x.toNat < z.toNat from Nat.lt_trans h1 h2]
              · simp [charsLe, show x.toNat < z.toNat by omega]
              · simp [charsLe, show ¬ y.toNat < z.toNat by omega, h2] at hbc
            · simp only [charsLe, if_neg (show ¬ x.toNat < y.toNat by omega),
                if_neg (show ¬ y.toNat < x.toNat by omega)] at hab
              rcases Nat.lt_trichotomy y.toNat z.toNat with h2 | h2 | h2
              · simp [charsLe, show x.toNat < z.toNat by omega]
              · simp only [charsLe, if_neg (show ¬ y.toNat < z.toNat by omega),
                  if_neg (show ¬ z.toNat < y.toNat by omega)] at hbc
                simp only [charsLe, if_neg (show ¬ x.toNat < z.toNat by omega),
                  if_neg (show ¬ z.toNat < x.toNat by omega)]
                exact ih ys zs hab hbc
              · simp [charsLe, show ¬ y.toNat < z.toNat by omega, h2] at hbc
            · simp [charsLe, show ¬ x.toNat < y.toNat by omega, h1] at hab
    exact fun a b c hab hbc => key a.data b.data c.data hab hbc

instance : IsTotal String strLeP where
  total := by
    have key : ∀ a b, charsLe a b = true ∨ charsLe b a = true := by
      intro a
      induction a with
      | nil => intro b; left; simp [charsLe]
      | cons x xs ih =>
        intro b
        cases b with
        | nil => right; simp [charsLe]
        | cons y ys =>
          rcases Nat.lt_trichotomy x.toNat y.toNat with h1 | h1 | h1
          · left; simp [charsLe, h1]
          · rcases ih ys with h | h
            · left
              simp [charsLe, show ¬ x.toNat < y.toNat by omega,
                show ¬ y.toNat < x.toNat by omega, h]
            · right
              simp [charsLe, show ¬ x.toNat < y.toNat by omega,
                show ¬ y.toNat < x.toNat by omega, h]
          · right; simp [charsLe, h1]
    exact fun a b => key a.data b.data

/-- `Keys`: the keys collected from the recency list (back to front)
and sorted lexicographically (`sort.Strings`). -/
def Cache.keysOf (c : Cache) : List String :=
  List.insertionSort strLeP (c.list.reverse.map Meta.key)

/-- `GetStats`. -/
structure Stats where
  size : Int
  entries : Int
  hit : Int
  miss : Int
deriving Repr, DecidableEq

def Cache.getStats (c : Cache) : Stats :=
  { size := c.size, entries := c.numEntries, hit := c.hit, miss := c.miss }

/-! ## The chunk-aggregation layer (`ChunkCache`) -/

/-- `FileEntry`: the aggregator's bookkeeping for one logical file
(the in-flight `WaitGroup` is a pure concurrency gate and has no
sequential state). -/
structure FileEntry where
  offset : List Int
  commonTag : Option Bytes
deriving Repr, DecidableEq

/-- `ChunkCache`: a blob cache plus the file → chunk-offsets index,
represented as an association list with distinct keys. -/
structure ChunkCache where
  cache : Cache
  chunks : List (String × FileEntry)
deriving Repr, DecidableEq

/-- `chunkKey`: `fmt.Sprintf("%s#%d", key, offset)`. -/
def chunkKey (key : String) (off : Int) : String :=
  key ++ "#" ++ toString off

/-- `c.Chunks[key]`. -/
def ChunkCache.findFile (cc : ChunkCache) (key : String) : Option FileEntry :=
  (cc.chunks.find? (fun p => p.1 == key)).map Prod.snd

/-- Replace the bookkeeping of `key` (mutation of the map value). -/
def ChunkCache.setFile (cc : ChunkCache) (key : String) (fe : FileEntry) : ChunkCache :=
  { cc with chunks := cc.chunks.map (fun p => if p.1 == key then (key, fe) else p) }

/-- `delete(c.Chunks, key)`. -/
def ChunkCache.removeFile (cc : ChunkCache) (key : String) : ChunkCache :=
  { cc with chunks := cc.chunks.eraseP (fun p => p.1 == key) }

/-- `getFileEntry`: return the entry, creating an empty one if absent. -/
def ChunkCache.ensureFile (cc : ChunkCache) (key : String) : ChunkCache :=
  match cc.findFile key with
  | some _ => cc
  | none => { cc with chunks := (key, { offset := [], commonTag := none }) :: cc.chunks }

/-- `addChunkOffset`: record `off` in the file's offset set. -/
def ChunkCache.addChunkOffset (cc : ChunkCache) (key : String) (off : Int) : ChunkCache :=
  let cc1 := cc.ensureFile key
  match cc1.findFile key with
  | some fe =>
    cc1.setFile key { fe with offset := if off ∈ fe.offset then fe.offset else fe.offset ++ [off] }
  | none => cc1

/-- The unconditional `delete(elem.Offset, offset)` followed by
dropping the file once its offset set is empty (the reconciliation
performed by `GetTag`, `unlockedSetTag` and `SetUntaggedChunks` when
the underlying blob has vanished). -/
def ChunkCache.dropOffset (cc : ChunkCache) (key : String) (off : Int) : ChunkCache :=
  match cc.findFile key with
  | none => cc
  | some fe =>
    let rest := fe.offset.erase off
    if rest.isEmpty then cc.removeFile key
    else cc.setFile key { fe with offset := rest }

/-- `delChunkOffset`: remove `off` only if it is tracked, reporting
whether a removal happened. -/
def ChunkCache.delChunkOffset (cc : ChunkCache) (key : String) (off : Int) :
    ChunkCache × Bool :=
  match cc.findFile key with
  | none => (cc, false)
  | some fe =>
    if off ∈ fe.offset then
      let rest := fe.offset.erase off
      if rest.isEmpty then (cc.removeFile key, true)
      else (cc.setFile key { fe with offset := rest }, true)
    else (cc, false)

/-- `ChunkCache.GetTag`. -/
def ChunkCache.getTag (cc : ChunkCache) (key : String) (off : Int) :
    ChunkCache × Option Bytes × Option Err :=
  match cc.findFile key with
  | none => (cc, none, some .notFound)
  | some _ =>
    match cc.cache.getTag (chunkKey key off) with
    | (tag, none) => (cc, tag, none)
    | (_, some _) => (cc.dropOffset key off, none, some .chunkNotFound)

/-- `GetCommonTag`. -/
def ChunkCache.getCommonTag (cc : ChunkCache) (key : String) :
    Option Bytes × Option Err :=
  match cc.findFile key with
  | none => (none, some .notFound)
  | some fe => (fe.commonTag, none)

/-- One iteration of the dismissal loop of `unlockedSetTag`: delete
from the blob store every other offset of the file whose tag differs
from `tag` (in the `bytes.Equal` sense), and drop the offsets actually
removed.  State: current blob cache and surviving offset set. -/
def dismissStep (key : String) (tag : Option Bytes) (off : Int)
    (st : Cache × List Int) (o : Int) : Cache × List Int :=
  if o == off then st
  else
    match st.1.deleteIf (chunkKey key o) (fun t => !bytesEq t tag) with
    | (c', true, none) => (c', st.2.erase o)
    | (c', _, _) => (c', st.2)

/-- `unlockedSetTag`: the coherence step. -/
def ChunkCache.unlockedSetTag (cc : ChunkCache) (key : String) (off : Int)
    (tag : Option Bytes) : ChunkCache × Option Err :=
  match cc.findFile key with
  | none => (cc, some .notFound)
  | some fe =>
    if off ∈ fe.offset then
      let keyfile := chunkKey key off
      match cc.cache.getTag keyfile with
      | (_, some e) => (cc.dropOffset key off, some e)
      | (ptag, none) =>
        let attempt : Cache × Option Err :=
          if ptag.isNone then cc.cache.setTag keyfile tag
          else if !bytesEq ptag tag then (cc.cache, some .alreadyTagged)
          else (cc.cache, none)
        match attempt with
        | (cache', some e) => ({ cc with cache := cache' }, some e)
        | (cache', none) =>
          let fe1 := if tag.isSome then { fe with commonTag := tag } else fe
          let (cache'', kept) := fe.offset.foldl (dismissStep key tag off) (cache', fe.offset)
          (({ cc with cache := cache'' }).setFile key { fe1 with offset := kept }, none)
    else (cc, some .chunkNotFound)

/-- `ChunkCache.SetTag`. -/
def ChunkCache.setTag (cc : ChunkCache) (key : String) (off : Int) (tag : Option Bytes) :
    ChunkCache × Option Err :=
  cc.unlockedSetTag key off tag

/-- One iteration of the `SetUntaggedChunks` loop.  State: current blob
cache, surviving offset set and count of chunks newly tagged; `none`
marks a Go `panic` (a tagged chunk disagreeing with the tag while the
common-tag test passed). -/
def sucStep (key : String) (tag : Option Bytes)
    (st : Option (Cache × List Int × Nat)) (o : Int) : Option (Cache × List Int × Nat) :=
  match st with
  | none => none
  | some (cache, kept, cnt) =>
    match cache.getTag (chunkKey key o) with
    | (_, some _) => some (cache, kept.erase o, cnt)
    | (ptag, none) =>
      if ptag.isNone then
        match cache.setTag (chunkKey key o) tag with
        | (c', none) => some (c', kept, cnt + 1)
        | (_, some _) => none
      else if !bytesEq ptag tag then none
      else some (cache, kept, cnt)

/-- Result of `SetUntaggedChunks`: `panicked` marks the Go `panic`
branches. -/
inductive SucRes
  | panicked
  | done (cc : ChunkCache) (n : Nat) (e : Option Err)
deriving Repr, DecidableEq

/-- `SetUntaggedChunks`. -/
def ChunkCache.setUntaggedChunks (cc : ChunkCache) (key : String) (tag : Option Bytes) :
    SucRes :=
  match cc.findFile key with
  | none => .done cc 0 (some .notFound)
  | some fe =>
    if fe.commonTag.isSome && !bytesEq fe.commonTag tag then
      .done cc 0 (some .incoherentTag)
    else
      match fe.offset.foldl (sucStep key tag) (some (cc.cache, fe.offset, 0)) with
      | none => .panicked
      | some (cache', kept, cnt) =>
        let fe1 := if tag.isSome then { fe with commonTag := tag } else fe
        let cc1 := { cc with cache := cache' }
        -- the map entry is deleted only when a stale-offset deletion inside
        -- the loop emptied the offset set (an initially empty set is kept)
        let cc2 := if kept.isEmpty && !fe.offset.isEmpty then cc1.removeFile key
                   else cc1.setFile key { fe1 with offset := kept }
        .done cc2 cnt none

/-- Result of a chunk-layer put. -/
inductive CcpRes
  | diverge
  | deadlock
  | done (cc : ChunkCache) (e : Option Err)
deriving Repr, DecidableEq

/-- `ChunkCache.PutWithTag` (and `Put`, with `tag = none`): delegate to
the blob cache under the composite chunk key; on a nil delegate error
(including the shadowed-err failure completions) record the offset,
and for a non-nil tag run the coherence step. -/
def ChunkCache.putWithTag (cc : ChunkCache) (key : String) (off : Int)
    (tag : Option Bytes) (io : PutIo) : CcpRes :=
  let cc1 := cc.ensureFile key
  match cc1.cache.putReaderWithTag (chunkKey key off) tag io with
  | .diverge => .diverge
  | .deadlock => .deadlock
  | .done cache' (some e) => .done { cc1 with cache := cache' } (some e)
  | .done cache' none =>
    let cc2 := ChunkCache.addChunkOffset { cc1 with cache := cache' } key off
    if tag.isNone then .done cc2 none
    else
      match cc2.unlockedSetTag key off tag with
      | (cc3, e) => .done cc3 e

/-- Result of `ChunkCache.GetWithTag`. -/
structure CGetRes where
  cc : ChunkCache
  tag : Option Bytes
  size : Int
  err : Option Err
deriving Repr, DecidableEq

/-- `ChunkCache.GetWithTag`: delegate; on any blob-store error
reconcile the stale offset out of the bookkeeping. -/
def ChunkCache.getWithTag (cc : ChunkCache) (key : String) (off : Int) : CGetRes :=
  let r := cc.cache.getWithTag (chunkKey key off)
  let cc' := { cc with cache := r.cache }
  match r.err with
  | some e => { cc := (cc'.delChunkOffset key off).1, tag := r.tag, size := r.size, err := some e }
  | none => { cc := cc', tag := r.tag, size := r.size, err := none }

/-- `ChunkCache.Get`: a resolved `nil` tag fails `ErrUntagged` (checked
before the delegate's error is propagated). -/
def ChunkCache.get (cc : ChunkCache) (key : String) (off : Int) :
    ChunkCache × Int × Option Err :=
  let r := cc.getWithTag key off
  if r.tag.isNone then (r.cc, 0, some .untagged)
  else (r.cc, r.size, r.err)

/-- `NumChunksOf`. -/
def ChunkCache.numChunksOf (cc : ChunkCache) (key : String) : Int × Option Err :=
  match cc.findFile key with
  | none => (0, some .notFound)
  | some fe => ((fe.offset.length : Int), none)

/-! ## Operation language and reachability of the blob cache -/

/-- One completed `Cache` operation (everything the public interface
offers after construction).  `putOp` covers `Put`, `PutWithTag`,
`PutReader` and `PutReaderWithTag` (a buffer put is `.content n`
with a healthy disk); `getOp` covers `Get` and `GetWithTag`. -/
inductive Op
  | putOp (key : String) (tag : Option Bytes) (io : PutIo)
  | getOp (key : String)
  | getTagOp (key : String)
  | setTagOp (key : String) (tag : Option Bytes)
  | deleteOp (key : String)
  | deleteIfOp (key : String) (pred : Option Bytes → Bool)
  | clearOp

/-- The state after one completed operation.  (A `putOp` whose
admission loop diverges, or that deadlocks on the reader failure,
never completes; the state is then left as is — no later operation can
complete after either — and divergence is shown unreachable
separately.) -/
def Cache.step (c : Cache) : Op → Cache
  | .putOp key tag io =>
    match c.putReaderWithTag key tag io with
    | .done c' _ => c'
    | .diverge => c
    | .deadlock => c
  | .getOp key => (c.getWithTag key).cache
  | .getTagOp _ => c
  | .setTagOp key tag => (c.setTag key tag).1
  | .deleteOp key => (c.delete key).1
  | .deleteIfOp key pred => (c.deleteIf key pred).1
  | .clearOp => c.clearAll

/-- Run a sequence of completed operations. -/
def Cache.run (c : Cache) (ops : List Op) : Cache :=
  ops.foldl Cache.step c

/-- States reachable from `New` over an existing directory (holding
arbitrary distinct stale files) by completed operations. -/
def Reachable (c : Cache) : Prop :=
  ∃ sz cnt d0 c0 ops,
    (d0 : List FPath).Nodup ∧ Cache.new true sz cnt d0 = Except.ok c0 ∧ c = c0.run ops

/-- The state invariant of the blob cache maintained by every
completed operation. -/
structure Inv (c : Cache) : Prop where
  size_eq : c.size = (c.list.map Meta.size).sum
  cnt_eq : c.numEntries = (c.list.length : Int)
  ready : ∀ m ∈ c.list, m.status = EntryStatus.ready
  keys_nodup : (c.list.map Meta.key).Nodup
  nonneg : ∀ m ∈ c.list, 0 ≤ m.size
  path_eq : ∀ m ∈ c.list, m.path = FPath.real m.key
  on_disk : ∀ m ∈ c.list, m.path ∈ c.disk
  disk_nodup : c.disk.Nodup
  size_le : c.size ≤ c.maxSize
  cnt_le : c.numEntries ≤ c.maxEntries
  maxS : 0 < c.maxSize
  maxE : 0 < c.maxEntries

/-- The busy entry `addElement` links at the start of a put. -/
def mkBusy (key : String) (tag : Option Bytes) : Meta :=
  { key := key, size := 0, path := FPath.real key, tag := tag, status := EntryStatus.busy }

/-- The ready entry a fully successful put of `n` bytes leaves behind. -/
def mkReady (key : String) (tag : Option Bytes) (n : Int) : Meta :=
  { key := key, size := n, path := FPath.real key, tag := tag, status := EntryStatus.ready }

/-- Invariant of the states holding the busy zero-size entry of a put
of `key` at the front of the list, the remainder `rest` consisting of
healthy ready entries of other keys. -/
structure PutMid (key : String) (tag : Option Bytes) (rest : List Meta) (c : Cache) : Prop where
  list_eq : c.list = mkBusy key tag :: rest
  rest_ready : ∀ x ∈ rest, x.status = EntryStatus.ready
  rest_nonneg : ∀ x ∈ rest, 0 ≤ x.size
  rest_path : ∀ x ∈ rest, x.path = FPath.real x.key
  rest_disk : ∀ x ∈ rest, x.path ∈ c.disk
  rest_key : ∀ x ∈ rest, x.key ≠ key
  rest_keys_nodup : (rest.map Meta.key).Nodup
  size_eq : c.size = (rest.map Meta.size).sum
  cnt_eq : c.numEntries = (rest.length : Int) + 1
  disk_nodup : c.disk.Nodup
  size_le : c.size ≤ c.maxSize
  cnt_le1 : c.numEntries ≤ c.maxEntries + 1
  maxS : 0 < c.maxSize
  maxE : 0 < c.maxEntries

/-- `PutMid` once the written content has also been renamed onto the
entry's final path, as holds throughout `validate`. -/
structure MidInv (key : String) (tag : Option Bytes) (rest : List Meta) (c : Cache)
    extends PutMid key tag rest c : Prop where
  front_disk : FPath.real key ∈ c.disk

/-- Chunk-layer put, projected to the completed state (used to express
scenarios; the chunk layer's admission never diverges on the healthy
states considered). -/
def ChunkCache.putDone (cc : ChunkCache) (key : String) (off : Int)
    (tag : Option Bytes) (io : PutIo) : ChunkCache :=
  match cc.putWithTag key off tag io with
  | .done cc' _ => cc'
  | .diverge => cc
  | .deadlock => cc

/-- The state `New` produces over an empty existing directory (used for
concrete scenarios). -/
def emptyCache (sz cnt : Int) : Cache :=
  { maxSize := sz, maxEntries := cnt, size := 0, numEntries := 0,
    hit := 0, miss := 0, list := [], disk := [] }

/-- A raw state with an empty recency sequence but a spurious positive
size counter — the hypothetical configuration the spec's defensive
empty-sequence clause speaks about (it is not reachable). -/
def emptyListOverBudget : Cache :=
  { maxSize := 10, maxEntries := 40, size := 5, numEntries := 0,
    hit := 0, miss := 0, list := [], disk := [] }

/-- An empty chunk-cache state over the given bounds. -/
def emptyChunkCache (sz cnt : Int) : ChunkCache :=
  { cache := emptyCache sz cnt, chunks := [] }

/-- `SetUntaggedChunks`, projected to the completed state (for chaining
scenarios). -/
def ChunkCache.sucDone (cc : ChunkCache) (key : String) (tag : Option Bytes) : ChunkCache :=
  match cc.setUntaggedChunks key tag with
  | .done cc' _ _ => cc'
  | .panicked => cc

/-- A small chunk-cache state tracking two offsets of one file whose
underlying blobs are not in the blob store (as after eviction). -/
def sampleChunkState : ChunkCache :=
  { cache := emptyCache 10 40,
    chunks := [("f", { offset := [0, 5], commonTag := none })] }

/-- The byte string `"tag"` of the chunk-coherence scenario. -/
def c8Tag : Bytes := [116, 97, 103]

/-- The byte string `"other"` of the chunk-coherence scenario. -/
def c8Other : Bytes := [111, 116, 104, 101, 114]

/-- The bookkeeping entry after three untagged chunk puts at offsets
`0`, `10`, `20`. -/
def c8FE : FileEntry := { offset := [0, 10, 20], commonTag := none }

/-- The chunk-coherence scenario: untagged 100-byte chunks of `"file"`
put at offsets `0`, `10` and `20`. -/
def c8S3 : ChunkCache :=
  (((emptyChunkCache 2048000 40).putDone "file" 0 none (.content 100)).putDone
      "file" 10 none (.content 100)).putDone "file" 20 none (.content 100)

/-- The scenario state after `SetUntaggedChunks("file", "tag")`. -/
def c8S4 : ChunkCache := c8S3.sucDone "file" (some c8Tag)

/-- The scenario state after a further untagged chunk put at offset `30`. -/
def c8S5 : ChunkCache := c8S4.putDone "file" 30 none (.content 100)

/-- The scenario state after the second `SetUntaggedChunks("file", "tag")`. -/
def c8S6 : ChunkCache := c8S5.sucDone "file" (some c8Tag)

/-- Two untagged 100-byte chunks of `"f"` put at offsets `0` and `1`
(the state probing the dismissal step of the coherence pass). -/
def c9S : ChunkCache :=
  ((emptyChunkCache 2048000 40).putDone "f" 0 none (.content 100)).putDone
    "f" 1 none (.content 100)

/-! ## Toolkit: `find?` / `eraseP` facts about the key index -/

theorem find_decomp {α : Type} (p : α → Bool) :
    ∀ (l : List α) (m : α), l.find? p = some m →
      ∃ l₁ l₂, l = l₁ ++ m :: l₂ ∧ (∀ x ∈ l₁, ¬ p x) ∧ l.eraseP p = l₁ ++ l₂ := by
  intro l
  induction l with
  | nil => intro m h; simp at h
  | cons a l ih =>
    intro m h
    by_cases hp : p a = true
    · rw [List.find?_cons_of_pos _ hp] at h
      cases h
      exact ⟨[], l, by simp, by simp, by simpa using List.eraseP_cons_of_pos hp⟩
    · rw [List.find?_cons_of_neg _ (by simpa using hp)] at h
      obtain ⟨l₁, l₂, hl, hl1, he⟩ := ih m h
      refine ⟨a :: l₁, l₂, by simp [hl], ?_, ?_⟩
      · intro x hx
        rcases List.mem_cons.mp hx with rfl | hx
        · simpa using hp
        · exact hl1 x hx
      · rw [List.eraseP_cons_of_neg (by simpa using hp), he]
        simp

theorem findEntry_key {c : Cache} {key : String} {m : Meta}
    (h : c.findEntry key = some m) : m.key = key := by
  have := List.find?_some h
  simpa using this

theorem findEntry_mem {c : Cache} {key : String} {m : Meta}
    (h : c.findEntry key = some m) : m ∈ c.list :=
  List.mem_of_find?_eq_some h

theorem findEntry_decomp {c : Cache} {key : String} {m : Meta}
    (h : c.findEntry key = some m) :
    ∃ l₁ l₂, c.list = l₁ ++ m :: l₂ ∧ (∀ x ∈ l₁, x.key ≠ key) ∧
      eraseKey c.list key = l₁ ++ l₂ := by
  obtain ⟨l₁, l₂, h1, h2, h3⟩ := find_decomp _ _ _ h
  exact ⟨l₁, l₂, h1, fun x hx => by simpa using h2 x hx, h3⟩

theorem findEntry_none {c : Cache} {key : String} (h : c.findEntry key = none) :
    ∀ m ∈ c.list, m.key ≠ key := by
  intro m hm
  have := List.find?_eq_none.mp h m hm
  simpa using this

theorem eraseKey_of_none {c : Cache} {key : String} (h : Cache.findEntry c key = none) :
    eraseKey c.list key = c.list :=
  List.eraseP_of_forall_not (by intro x hx; simpa using findEntry_none h x hx)

theorem mem_eraseKey {l : List Meta} {key : String} {x : Meta}
    (h : x ∈ eraseKey l key) : x ∈ l :=
  List.mem_of_mem_eraseP h

theorem eraseKey_keys_nodup {l : List Meta} {key : String}
    (h : (l.map Meta.key).Nodup) : ((eraseKey l key).map Meta.key).Nodup :=
  h.sublist (List.Sublist.map Meta.key (List.eraseP_sublist l))

theorem eraseKey_key_ne {c : Cache} {key : String}
    (hnd : (c.list.map Meta.key).Nodup) :
    ∀ x ∈ eraseKey c.list key, x.key ≠ key := by
  intro x hx
  cases hfe : c.findEntry key with
  | none =>
    rw [eraseKey_of_none hfe] at hx
    exact findEntry_none hfe x hx
  | some m =>
    obtain ⟨l₁, l₂, hl, h1, he⟩ := findEntry_decomp hfe
    rw [he] at hx
    rcases List.mem_append.mp hx with hx1 | hx2
    · exact h1 x hx1
    · have hk := findEntry_key hfe
      rw [hl] at hnd
      have : (List.map Meta.key l₁ ++ m.key :: List.map Meta.key l₂).Nodup := by
        simpa using hnd
      have h2 : (m.key :: List.map Meta.key l₂).Nodup :=
        this.sublist (List.sublist_append_right _ _)
      have : m.key ∉ List.map Meta.key l₂ := by
        have := h2.not_mem
        simpa using this
      intro hxk
      exact this (by
        rw [← hk] at hxk
        exact hxk ▸ List.mem_map_of_mem Meta.key hx2)

theorem sum_eraseKey {c : Cache} {key : String} {m : Meta}
    (h : c.findEntry key = some m) :
    ((eraseKey c.list key).map Meta.size).sum = (c.list.map Meta.size).sum - m.size := by
  obtain ⟨l₁, l₂, hl, _, he⟩ := findEntry_decomp h
  rw [he, hl]
  simp
  ring

theorem length_eraseKey {c : Cache} {key : String} {m : Meta}
    (h : c.findEntry key = some m) :
    (eraseKey c.list key).length + 1 = c.list.length := by
  obtain ⟨l₁, l₂, hl, _, he⟩ := findEntry_decomp h
  rw [he, hl]
  simp
  omega

theorem mem_insertPath_self (d : List FPath) (p : FPath) : p ∈ insertPath d p := by
  unfold insertPath
  by_cases h : p ∈ d <;> simp [h]

theorem mem_insertPath_of_mem {d : List FPath} {q : FPath} (p : FPath)
    (h : q ∈ d) : q ∈ insertPath d p := by
  unfold insertPath
  by_cases hp : p ∈ d <;> simp [hp, h]

theorem insertPath_nodup {d : List FPath} (p : FPath) (h : d.Nodup) :
    (insertPath d p).Nodup := by
  unfold insertPath
  by_cases hp : p ∈ d <;> simp [hp, h]

/-! ## The put path: `addElement`, eviction, `updateElement`, `removeElement` -/

theorem addElement_putMid {c : Cache} (key : String) (tag : Option Bytes) (h : Inv c) :
    PutMid key tag (eraseKey c.list key) (c.addElement key tag (FPath.real key) 0 .busy) ∧
    (c.addElement key tag (FPath.real key) 0 .busy).disk = c.disk ∧
    (c.addElement key tag (FPath.real key) 0 .busy).maxSize = c.maxSize ∧
    (c.addElement key tag (FPath.real key) 0 .busy).maxEntries = c.maxEntries := by
  unfold Cache.addElement
  cases hfe : c.findEntry key with
  | none =>
    refine ⟨?_, rfl, rfl, rfl⟩
    have he : eraseKey c.list key = c.list := eraseKey_of_none hfe
    refine ⟨?_, ?_, ?_, ?_, ?_, ?_, ?_, ?_, ?_, h.disk_nodup, ?_, ?_, h.maxS, h.maxE⟩
    · simp only [he, mkBusy]
    · intro x hx; exact h.ready x (he ▸ hx)
    · intro x hx; exact h.nonneg x (he ▸ hx)
    · intro x hx; exact h.path_eq x (he ▸ hx)
    · intro x hx; exact h.on_disk x (he ▸ hx)
    · exact eraseKey_key_ne h.keys_nodup
    · exact eraseKey_keys_nodup h.keys_nodup
    · simp only [he]; simpa using h.size_eq
    · simp only [he]; simpa using h.cnt_eq
    · simpa using h.size_le
    · have := h.cnt_le; dsimp only; omega
  | some m =>
    refine ⟨?_, rfl, rfl, rfl⟩
    have hk : m.key = key := findEntry_key hfe
    have hm : m ∈ c.list := findEntry_mem hfe
    have hms : 0 ≤ m.size := h.nonneg m hm
    refine ⟨?_, ?_, ?_, ?_, ?_, ?_, ?_, ?_, ?_, h.disk_nodup, ?_, ?_, h.maxS, h.maxE⟩
    · simp only [mkBusy]
      cases m
      simp_all
    · intro x hx; exact h.ready x (mem_eraseKey hx)
    · intro x hx; exact h.nonneg x (mem_eraseKey hx)
    · intro x hx; exact h.path_eq x (mem_eraseKey hx)
    · intro x hx; exact h.on_disk x (mem_eraseKey hx)
    · exact eraseKey_key_ne h.keys_nodup
    · exact eraseKey_keys_nodup h.keys_nodup
    · have := sum_eraseKey hfe
      have := h.size_eq
      simp only []
      omega
    · have := length_eraseKey hfe
      have := h.cnt_eq
      simp only []
      omega
    · have := h.size_le; dsimp only; omega
    · have := h.cnt_le; dsimp only; omega

theorem putMid_set_disk {key : String} {tag : Option Bytes} {rest : List Meta} {c : Cache}
    (h : PutMid key tag rest c) (d : List FPath)
    (hd : ∀ x ∈ rest, x.path ∈ d) (hnd : d.Nodup) :
    PutMid key tag rest { c with disk := d } :=
  ⟨h.list_eq, h.rest_ready, h.rest_nonneg, h.rest_path, hd, h.rest_key, h.rest_keys_nodup,
   h.size_eq, h.cnt_eq, hnd, h.size_le, h.cnt_le1, h.maxS, h.maxE⟩

theorem putMid_insert {key : String} {tag : Option Bytes} {rest : List Meta} {c : Cache}
    (h : PutMid key tag rest c) :
    MidInv key tag rest { c with disk := insertPath c.disk (FPath.real key) } := by
  refine ⟨putMid_set_disk h _ ?_ (insertPath_nodup _ h.disk_nodup), mem_insertPath_self _ _⟩
  intro x hx
  exact mem_insertPath_of_mem _ (h.rest_disk x hx)

theorem putMid_erase_front {key : String} {tag : Option Bytes} {rest : List Meta} {c : Cache}
    (h : PutMid key tag rest c) :
    PutMid key tag rest { c with disk := c.disk.erase (FPath.real key) } := by
  refine putMid_set_disk h _ ?_ (h.disk_nodup.erase _)
  intro x hx
  have hne : x.path ≠ FPath.real key := by
    rw [h.rest_path x hx]
    intro hcon
    exact h.rest_key x hx (by injection hcon)
  exact (List.mem_erase_of_ne hne).mpr (h.rest_disk x hx)

theorem findEntry_front {key : String} {tag : Option Bytes} {rest : List Meta} {c : Cache}
    (hl : c.list = mkBusy key tag :: rest) :
    c.findEntry key = some (mkBusy key tag) := by
  unfold Cache.findEntry
  rw [hl]
  exact List.find?_cons_of_pos _ (by simp [mkBusy])

theorem eraseKey_front {key : String} {tag : Option Bytes} {rest : List Meta} {c : Cache}
    (hl : c.list = mkBusy key tag :: rest) :
    eraseKey c.list key = rest := by
  unfold eraseKey
  rw [hl]
  exact List.eraseP_cons_of_pos (by simp [mkBusy])

theorem putMid_removeElement {key : String} {tag : Option Bytes} {rest : List Meta} {c : Cache}
    (h : PutMid key tag rest c) :
    (c.removeElement key).1.list = rest ∧ (c.removeElement key).1.disk = c.disk ∧
      Inv (c.removeElement key).1 := by
  simp only [Cache.removeElement, findEntry_front h.list_eq, eraseKey_front h.list_eq]
  refine ⟨trivial, trivial, ?_⟩
  refine ⟨?_, ?_, h.rest_ready, h.rest_keys_nodup, h.rest_nonneg, h.rest_path, h.rest_disk,
    h.disk_nodup, ?_, ?_, h.maxS, h.maxE⟩
  · have := h.size_eq
    simp only [mkBusy]
    omega
  · have := h.cnt_eq
    simp only []
    omega
  · have := h.size_le
    simp only [mkBusy]
    omega
  · have := h.cnt_le1
    simp only []
    omega

theorem evictLast_mid {key : String} {tag : Option Bytes} {rest : List Meta} {c : Cache}
    (h : MidInv key tag rest c) (hne : rest ≠ []) :
    ∃ c', c.evictLast = (c', none) ∧ MidInv key tag rest.dropLast c' ∧
      c'.size = c.size - (rest.getLast hne).size ∧
      c'.numEntries = c.numEntries - 1 ∧
      c'.maxSize = c.maxSize ∧ c'.maxEntries = c.maxEntries ∧
      c'.size ≤ c.size ∧ c'.list.length + 1 = c.list.length := by
  have hl := h.list_eq
  have hLmem : rest.getLast hne ∈ rest := List.getLast_mem hne
  have hcons : c.list ≠ [] := by rw [hl]; simp
  have hgl : c.list.getLast? = some (rest.getLast hne) := by
    rw [hl, List.getLast?_eq_getLast _ (by simp)]
    congr 1
    exact List.getLast_cons hne
  have hLdisk : (rest.getLast hne).path ∈ c.disk := h.rest_disk _ hLmem
  have hdecomp : rest.dropLast ++ [rest.getLast hne] = rest := List.dropLast_append_getLast hne
  have hkeyLast : ∀ x ∈ rest.dropLast, x.key ≠ (rest.getLast hne).key := by
    intro x hx
    have hnd := h.rest_keys_nodup
    rw [← hdecomp] at hnd
    simp only [List.map_append, List.map_cons, List.map_nil] at hnd
    have := (List.nodup_append.mp hnd).2.2
    intro hcon
    exact this (List.mem_map_of_mem Meta.key hx) (by simp [hcon])
  have hpathLast : ∀ x ∈ rest.dropLast, x.path ≠ (rest.getLast hne).path := by
    intro x hx
    rw [h.rest_path x (List.dropLast_sublist rest |>.mem hx),
        h.rest_path _ hLmem]
    intro hcon
    exact hkeyLast x hx (by injection hcon)
  unfold Cache.evictLast
  rw [hgl]
  simp only [hLdisk, if_pos]
  refine ⟨_, rfl, ?_, ?_, ?_, rfl, rfl, ?_, ?_⟩
  · refine ⟨⟨?_, ?_, ?_, ?_, ?_, ?_, ?_, ?_, ?_, h.disk_nodup.erase _, ?_, ?_, h.maxS, h.maxE⟩, ?_⟩
    · simp only [hl]
      exact List.dropLast_cons_of_ne_nil hne
    · intro x hx; exact h.rest_ready x (List.dropLast_sublist rest |>.mem hx)
    · intro x hx; exact h.rest_nonneg x (List.dropLast_sublist rest |>.mem hx)
    · intro x hx; exact h.rest_path x (List.dropLast_sublist rest |>.mem hx)
    · intro x hx
      exact (List.mem_erase_of_ne (hpathLast x hx)).mpr
        (h.rest_disk x (List.dropLast_sublist rest |>.mem hx))
    · intro x hx; exact h.rest_key x (List.dropLast_sublist rest |>.mem hx)
    · exact h.rest_keys_nodup.sublist (List.Sublist.map Meta.key (List.dropLast_sublist rest))
    · have hsum : ((rest.dropLast ++ [rest.getLast hne]).map Meta.size).sum
          = ((rest.dropLast.map Meta.size).sum + (rest.getLast hne).size) := by simp
      rw [hdecomp] at hsum
      have := h.size_eq
      simp only []
      omega
    · have hlen : rest.dropLast.length + 1 = rest.length := by
        conv_rhs => rw [← hdecomp]
        simp
      have := h.cnt_eq
      simp only []
      omega
    · have hLsize : 0 ≤ (rest.getLast hne).size := h.rest_nonneg _ hLmem
      have := h.size_le
      simp only []
      omega
    · have := h.cnt_le1
      simp only []
      omega
    · have hne2 : FPath.real key ≠ (rest.getLast hne).path := by
        rw [h.rest_path _ hLmem]
        intro hcon
        have hck : key = (rest.getLast hne).key := by injection hcon
        exact h.rest_key _ hLmem hck.symm
      exact (List.mem_erase_of_ne hne2).mpr h.front_disk
  · have hLsize : 0 ≤ (rest.getLast hne).size := h.rest_nonneg _ hLmem
    simp only []
  · simp only []
  · have hLsize : 0 ≤ (rest.getLast hne).size := h.rest_nonneg _ hLmem
    simp only []
    omega
  · simp only [hl]
    rw [List.dropLast_cons_of_ne_nil hne]
    simp only [List.length_cons]
    have : rest.dropLast.length + 1 = rest.length := by
      conv_rhs => rw [← hdecomp]
      simp
    omega

theorem sizeLoop_mid {key : String} {tag : Option Bytes} (n : Int) :
    ∀ (fuel : Nat) (rest : List Meta) (c : Cache), MidInv key tag rest c →
      n ≤ c.maxSize → rest.length < fuel →
      ∃ rest' c', Cache.sizeEvictLoop fuel n c = .ok c' ∧ MidInv key tag rest' c' ∧
        n + c'.size ≤ c'.maxSize ∧ c'.maxSize = c.maxSize ∧ c'.maxEntries = c.maxEntries ∧
        c'.numEntries ≤ c.numEntries ∧ c'.size ≤ c.size := by
  intro fuel
  induction fuel with
  | zero => intro rest c _ _ hf; omega
  | succ f ih =>
    intro rest c h hmax hf
    by_cases hover : n + c.size > c.maxSize
    · have hrest : rest ≠ [] := by
        intro hcon
        have hsz := h.size_eq
        rw [hcon] at hsz
        simp at hsz
        omega
      obtain ⟨c1, hev, hmid1, hsz1, hcnt1, hms1, hme1, hszle1, hlen1⟩ := evictLast_mid h hrest
      have hlen' : rest.dropLast.length < f := by
        have hdl : rest.dropLast.length + 1 = rest.length := by
          conv_rhs => rw [← List.dropLast_append_getLast hrest]
          simp
        omega
      obtain ⟨rest', c', hloop, hmid', hsz', hms', hme', hcnt', hszle'⟩ :=
        ih rest.dropLast c1 hmid1 (by omega) hlen'
      refine ⟨rest', c', ?_, hmid', hsz', by omega, by omega, by omega, by omega⟩
      simp only [Cache.sizeEvictLoop]
      rw [if_pos hover, hev]
      exact hloop
    · refine ⟨rest, c, ?_, h, by omega, rfl, rfl, le_refl _, le_refl _⟩
      simp only [Cache.sizeEvictLoop]
      rw [if_neg hover]

theorem sizeLoop_no_evict {c : Cache} {n : Int} (fuel : Nat)
    (h : ¬ n + c.size > c.maxSize) :
    Cache.sizeEvictLoop fuel n c = .ok c := by
  cases fuel with
  | zero => simp only [Cache.sizeEvictLoop]; rw [if_neg h]
  | succ f => simp only [Cache.sizeEvictLoop]; rw [if_neg h]

theorem validate_tooLarge {c : Cache} {path : FPath} {n : Int} (h : n > c.maxSize) :
    c.validate path n = .fail { c with disk := c.disk.erase path } .tooLarge := by
  unfold Cache.validate
  rw [if_pos h]

theorem validate_mid {key : String} {tag : Option Bytes} {rest : List Meta} {c : Cache}
    (h : MidInv key tag rest c) (n : Int) (hnle : n ≤ c.maxSize) :
    ∃ rest' c', c.validate (FPath.real key) n = .ok c' ∧ MidInv key tag rest' c' ∧
      n + c'.size ≤ c'.maxSize ∧ c'.numEntries ≤ c'.maxEntries ∧
      c'.maxSize = c.maxSize ∧ c'.maxEntries = c.maxEntries := by
  unfold Cache.validate
  have hng : ¬ n > c.maxSize := by omega
  rw [if_neg hng]
  obtain ⟨rest1, c1, hloop, hmid1, hsz1, hms1, hme1, hcnt1, hszle1⟩ :=
    sizeLoop_mid n (c.list.length + 1) rest c h hnle
      (by rw [h.list_eq]; simp only [List.length_cons]; omega)
  rw [hloop]
  dsimp only
  by_cases hcnt : c1.numEntries > c1.maxEntries
  · rw [if_pos hcnt]
    have hrest1 : rest1 ≠ [] := by
      intro hcon
      have hc := hmid1.cnt_eq
      rw [hcon] at hc
      simp at hc
      have := hmid1.maxE
      omega
    obtain ⟨c2, hev, hmid2, hsz2eq, hcnt2, hms2, hme2, hszle2, _⟩ := evictLast_mid hmid1 hrest1
    rw [hev]
    have hc1le := hmid1.cnt_le1
    refine ⟨rest1.dropLast, c2, rfl, hmid2, by omega, by omega, by omega, by omega⟩
  · rw [if_neg hcnt]
    exact ⟨rest1, c1, rfl, hmid1, hsz1, by omega, hms1, hme1⟩

theorem updateElement_ready {key : String} {tag : Option Bytes} {rest : List Meta} {c : Cache}
    (h : MidInv key tag rest c) (n : Int)
    (hn0 : 0 ≤ n) (hsz : n + c.size ≤ c.maxSize) (hcnt : c.numEntries ≤ c.maxEntries) :
    ∃ c', c.updateElement key tag (FPath.real key) n .ready = (c', none) ∧ Inv c' ∧
      c'.list = mkReady key tag n :: rest ∧ c'.size = c.size + n ∧
      c'.numEntries = c.numEntries ∧ c'.maxSize = c.maxSize ∧ c'.maxEntries = c.maxEntries ∧
      c'.hit = c.hit ∧ c'.miss = c.miss ∧ c'.disk = c.disk := by
  have hfe := findEntry_front h.list_eq
  have hmap : c.list.map (fun x =>
      if x.key == key then
        { x with key := key, tag := tag, size := n, path := FPath.real key,
                 status := EntryStatus.ready }
      else x) = mkReady key tag n :: rest := by
    rw [h.list_eq]
    simp only [List.map_cons]
    congr 1
    · simp [mkBusy, mkReady]
    · calc rest.map _ = rest.map id := by
            refine List.map_congr_left ?_
            intro x hx
            have hxk : ¬ (x.key == key) = true := by simpa using h.rest_key x hx
            simp [hxk]
      _ = rest := List.map_id rest
  simp only [Cache.updateElement, hfe, hmap]
  refine ⟨_, rfl, ?_, rfl, ?_, ?_, rfl, rfl, rfl, rfl, rfl⟩
  · have hszeq := h.size_eq
    have hcnteq := h.cnt_eq
    refine ⟨?_, ?_, ?_, ?_, ?_, ?_, ?_, h.disk_nodup, ?_, ?_, h.maxS, h.maxE⟩
    · simp only [List.map_cons, List.sum_cons, mkReady, mkBusy]
      omega
    · simp only [List.length_cons]
      push_cast
      omega
    · intro m hm
      rcases List.mem_cons.mp hm with rfl | hm
      · rfl
      · exact h.rest_ready m hm
    · simp only [List.map_cons]
      refine List.nodup_cons.mpr ⟨?_, h.rest_keys_nodup⟩
      intro hmem
      obtain ⟨x, hx, hxk⟩ := List.mem_map.mp hmem
      exact h.rest_key x hx (by simpa [mkReady] using hxk)
    · intro m hm
      rcases List.mem_cons.mp hm with rfl | hm
      · simpa [mkReady] using hn0
      · exact h.rest_nonneg m hm
    · intro m hm
      rcases List.mem_cons.mp hm with rfl | hm
      · simp [mkReady]
      · exact h.rest_path m hm
    · intro m hm
      rcases List.mem_cons.mp hm with rfl | hm
      · simpa [mkReady] using h.front_disk
      · exact h.rest_disk m hm
    · simp only [mkBusy]
      omega
    · dsimp only
      exact hcnt
  · dsimp only [mkBusy]
    omega
  · dsimp only

/-! ## The complete behaviour of `PutReaderWithTag` on healthy states -/

theorem findEntry_none_of_keys {c : Cache} {key : String}
    (h : ∀ m ∈ c.list, m.key ≠ key) : c.findEntry key = none :=
  List.find?_eq_none.mpr (by intro x hx; simpa using h x hx)

theorem put_noop {c : Cache} {key : String} {tag : Option Bytes} (io : PutIo)
    (h : c.isNoop key tag = true) :
    c.putReaderWithTag key tag io = .done c none := by
  unfold Cache.putReaderWithTag
  rw [h]
  simp

theorem put_reader_deadlock {c : Cache} (key : String) (tag : Option Bytes)
    (hnoop : c.isNoop key tag = false) :
    c.putReaderWithTag key tag .readerFail = .deadlock := by
  unfold Cache.putReaderWithTag
  rw [hnoop]
  simp

theorem put_fail_io {c : Cache} (key : String) (tag : Option Bytes) (h : Inv c)
    (hnoop : c.isNoop key tag = false) :
    ∃ c', c.putReaderWithTag key tag .writeFail = .done c' (some .ioErr) ∧ Inv c' ∧
      c'.list = eraseKey c.list key ∧ c'.findEntry key = none := by
  obtain ⟨hmid, hdisk, hms, hme⟩ := addElement_putMid key tag h
  have hrem := putMid_removeElement hmid
  have habs : (((c.addElement key tag (FPath.real key) 0 .busy)).removeElement key).1.findEntry
      key = none := by
    apply findEntry_none_of_keys
    rw [hrem.1]
    exact hmid.rest_key
  unfold Cache.putReaderWithTag
  rw [hnoop]
  exact ⟨_, by simp, hrem.2.2, hrem.1, habs⟩

theorem put_fail_rename {c : Cache} (key : String) (tag : Option Bytes) (h : Inv c)
    (hnoop : c.isNoop key tag = false) :
    ∃ c', c.putReaderWithTag key tag .renameFail = .done c' none ∧ Inv c' ∧
      c'.list = eraseKey c.list key ∧ c'.findEntry key = none := by
  obtain ⟨hmid, hdisk, hms, hme⟩ := addElement_putMid key tag h
  have hrem := putMid_removeElement hmid
  have habs : (((c.addElement key tag (FPath.real key) 0 .busy)).removeElement key).1.findEntry
      key = none := by
    apply findEntry_none_of_keys
    rw [hrem.1]
    exact hmid.rest_key
  unfold Cache.putReaderWithTag
  rw [hnoop]
  exact ⟨_, by simp, hrem.2.2, hrem.1, habs⟩

theorem put_tooLarge_spec {c : Cache} (key : String) (tag : Option Bytes) {n : Nat} (h : Inv c)
    (hnoop : c.isNoop key tag = false) (hn : (n : Int) > c.maxSize) :
    ∃ c', c.putReaderWithTag key tag (.content n) = .done c' none ∧ Inv c' ∧
      c'.list = eraseKey c.list key ∧ c'.findEntry key = none ∧
      FPath.real key ∉ c'.disk := by
  obtain ⟨hmid, hdisk, hms, hme⟩ := addElement_putMid key tag h
  set c1 := c.addElement key tag (FPath.real key) 0 .busy with hc1
  have hmid3 : MidInv key tag (eraseKey c.list key)
      { c1 with disk := insertPath c1.disk (FPath.real key) } := putMid_insert hmid
  set c3 : Cache := { c1 with disk := insertPath c1.disk (FPath.real key) } with hc3
  have hval : c3.validate (FPath.real key) (n : Int) =
      .fail { c3 with disk := c3.disk.erase (FPath.real key) } .tooLarge :=
    validate_tooLarge (by rw [hc3]; dsimp only; omega)
  set c4 : Cache := { c3 with disk := (c3.disk.erase (FPath.real key)).erase (FPath.real key) }
    with hc4
  have hmid4 : PutMid key tag (eraseKey c.list key) c4 := by
    refine putMid_set_disk hmid3.toPutMid _ ?_ ((hmid3.disk_nodup.erase _).erase _)
    intro x hx
    have hxp : x.path ≠ FPath.real key := by
      rw [hmid3.rest_path x hx]
      intro hcon
      exact hmid3.rest_key x hx (by injection hcon)
    exact (List.mem_erase_of_ne hxp).mpr ((List.mem_erase_of_ne hxp).mpr (hmid3.rest_disk x hx))
  have hrem := putMid_removeElement hmid4
  have habs : ((c4.removeElement key).1.findEntry key) = none := by
    apply findEntry_none_of_keys
    rw [hrem.1]
    exact hmid4.rest_key
  have hnotdisk : FPath.real key ∉ (c4.removeElement key).1.disk := by
    rw [hrem.2.1]
    intro hmem
    have h1 : FPath.real key ∈ c3.disk.erase (FPath.real key) := List.mem_of_mem_erase hmem
    exact hmid3.disk_nodup.not_mem_erase h1
  refine ⟨_, ?_, hrem.2.2, hrem.1, habs, hnotdisk⟩
  unfold Cache.putReaderWithTag
  rw [hnoop]
  simp only [Bool.false_eq_true, if_false]
  rw [← hc1, ← hc3, hval]

theorem put_content_ok {c : Cache} (key : String) (tag : Option Bytes) {n : Nat} (h : Inv c)
    (hnoop : c.isNoop key tag = false) (hn : ¬ (n : Int) > c.maxSize) :
    ∃ rest' c', c.putReaderWithTag key tag (.content n) = .done c' none ∧ Inv c' ∧
      c'.list = mkReady key tag (n : Int) :: rest' ∧
      (∀ x ∈ rest', x.key ≠ key) := by
  obtain ⟨hmid, hdisk, hms, hme⟩ := addElement_putMid key tag h
  set c1 := c.addElement key tag (FPath.real key) 0 .busy with hc1
  have hmid3 : MidInv key tag (eraseKey c.list key)
      { c1 with disk := insertPath c1.disk (FPath.real key) } := putMid_insert hmid
  set c3 : Cache := { c1 with disk := insertPath c1.disk (FPath.real key) } with hc3
  obtain ⟨rest4, c4, hval, hmid4, hsz4, hcnt4, hms4, hme4⟩ :=
    validate_mid hmid3 (n : Int) (by rw [hc3]; dsimp only; omega)
  obtain ⟨c5, hupd, hinv5, hlist5, _, _, _, _, _, _, _⟩ :=
    updateElement_ready hmid4 (n : Int) (by positivity) (by omega) (by omega)
  refine ⟨rest4, c5, ?_, hinv5, hlist5, hmid4.rest_key⟩
  unfold Cache.putReaderWithTag
  rw [hnoop]
  simp only [Bool.false_eq_true, if_false]
  rw [← hc1, ← hc3, hval]
  simp only []
  rw [hupd]

theorem putReader_inv {c : Cache} (key : String) (tag : Option Bytes) (io : PutIo) (h : Inv c) :
    c.putReaderWithTag key tag io ≠ .diverge ∧
    (∀ c' e, c.putReaderWithTag key tag io = .done c' e → Inv c') := by
  by_cases hnoop : c.isNoop key tag = true
  · rw [put_noop io hnoop]
    exact ⟨by simp, by intro c' e he; cases he; exact h⟩
  · have hnoop' : c.isNoop key tag = false := by simpa using hnoop
    cases io with
    | readerFail =>
      rw [put_reader_deadlock key tag hnoop']
      exact ⟨by simp, by intro c'' e he; cases he⟩
    | writeFail =>
      obtain ⟨c', heq, hinv, _, _⟩ := put_fail_io key tag h hnoop'
      rw [heq]
      exact ⟨by simp, by intro c'' e he; cases he; exact hinv⟩
    | renameFail =>
      obtain ⟨c', heq, hinv, _, _⟩ := put_fail_rename key tag h hnoop'
      rw [heq]
      exact ⟨by simp, by intro c'' e he; cases he; exact hinv⟩
    | content n =>
      by_cases hn : (n : Int) > c.maxSize
      · obtain ⟨c', heq, hinv, _, _, _⟩ := put_tooLarge_spec key tag h hnoop' hn
        rw [heq]
        exact ⟨by simp, by intro c'' e he; cases he; exact hinv⟩
      · obtain ⟨rest', c', heq, hinv, _, _⟩ := put_content_ok key tag h hnoop' hn
        rw [heq]
        exact ⟨by simp, by intro c'' e he; cases he; exact hinv⟩

/-! ## Invariant preservation by the remaining operations -/

theorem inv_transfer {c c' : Cache} (h : Inv c) (hms : c'.maxSize = c.maxSize)
    (hme : c'.maxEntries = c.maxEntries) (hsz : c'.size = c.size)
    (hcnt : c'.numEntries = c.numEntries) (hdisk : c'.disk = c.disk)
    (hp : c'.list.Perm c.list) : Inv c' := by
  refine ⟨?_, ?_, ?_, ?_, ?_, ?_, ?_, ?_, ?_, ?_, ?_, ?_⟩
  · rw [hsz, h.size_eq]
    exact ((hp.map Meta.size).sum_eq).symm
  · rw [hcnt, h.cnt_eq]
    exact_mod_cast hp.length_eq.symm
  · intro m hm; exact h.ready m (hp.mem_iff.mp hm)
  · exact ((hp.map Meta.key).nodup_iff).mpr h.keys_nodup
  · intro m hm; exact h.nonneg m (hp.mem_iff.mp hm)
  · intro m hm; exact h.path_eq m (hp.mem_iff.mp hm)
  · intro m hm; rw [hdisk]; exact h.on_disk m (hp.mem_iff.mp hm)
  · rw [hdisk]; exact h.disk_nodup
  · rw [hsz, hms]; exact h.size_le
  · rw [hcnt, hme]; exact h.cnt_le
  · rw [hms]; exact h.maxS
  · rw [hme]; exact h.maxE

theorem perm_cons_eraseKey {c : Cache} {key : String} {m : Meta}
    (hfe : c.findEntry key = some m) : (m :: eraseKey c.list key).Perm c.list := by
  obtain ⟨l₁, l₂, hl, _, he⟩ := findEntry_decomp hfe
  rw [he, hl]
  exact List.perm_middle.symm

theorem inv_moveToFront {c : Cache} (key : String) (h : Inv c) :
    Inv (c.moveToFront key) := by
  unfold Cache.moveToFront
  cases hfe : c.findEntry key with
  | none => exact h
  | some m => exact inv_transfer h rfl rfl rfl rfl rfl (perm_cons_eraseKey hfe)

theorem inv_getWithTag (c : Cache) (key : String) (h : Inv c) :
    Inv (c.getWithTag key).cache := by
  unfold Cache.getWithTag
  cases hfe : c.findEntry key with
  | none =>
    dsimp only
    exact inv_transfer h rfl rfl rfl rfl rfl (List.Perm.refl _)
  | some m =>
    dsimp only
    by_cases hst : (m.status == EntryStatus.ready) = true
    · rw [if_pos hst]
      by_cases hd : m.path ∈ (c.moveToFront key).disk
      · rw [if_pos hd]
        dsimp only
        exact inv_transfer (inv_moveToFront key h) rfl rfl rfl rfl rfl (List.Perm.refl _)
      · rw [if_neg hd]
        exact inv_moveToFront key h
    · rw [if_neg hst]
      dsimp only
      exact inv_transfer h rfl rfl rfl rfl rfl (List.Perm.refl _)

theorem inv_erase_entry {c : Cache} {key : String} {m : Meta}
    (h : Inv c) (hfe : c.findEntry key = some m) :
    Inv { c with size := c.size - m.size, numEntries := c.numEntries - 1,
                 disk := c.disk.erase m.path, list := eraseKey c.list key } := by
  have hm := findEntry_mem hfe
  have hk := findEntry_key hfe
  have hms : 0 ≤ m.size := h.nonneg m hm
  refine ⟨?_, ?_, ?_, ?_, ?_, ?_, ?_, h.disk_nodup.erase _, ?_, ?_, h.maxS, h.maxE⟩
  · have := sum_eraseKey hfe
    have := h.size_eq
    dsimp only
    omega
  · have := length_eraseKey hfe
    have := h.cnt_eq
    dsimp only
    omega
  · intro x hx; exact h.ready x (mem_eraseKey hx)
  · exact eraseKey_keys_nodup h.keys_nodup
  · intro x hx; exact h.nonneg x (mem_eraseKey hx)
  · intro x hx; exact h.path_eq x (mem_eraseKey hx)
  · intro x hx
    have hxk : x.key ≠ key := eraseKey_key_ne h.keys_nodup x hx
    have hxp : x.path ≠ m.path := by
      rw [h.path_eq x (mem_eraseKey hx), h.path_eq m hm, hk]
      intro hcon
      exact hxk (by injection hcon)
    exact (List.mem_erase_of_ne hxp).mpr (h.on_disk x (mem_eraseKey hx))
  · have := h.size_le
    dsimp only
    omega
  · have := h.cnt_le
    dsimp only
    omega

theorem inv_delete (c : Cache) (key : String) (h : Inv c) : Inv (c.delete key).1 := by
  unfold Cache.delete
  cases hfe : c.findEntry key with
  | none => exact h
  | some m => exact inv_erase_entry h hfe

theorem inv_deleteIf (c : Cache) (key : String) (pred : Option Bytes → Bool) (h : Inv c) :
    Inv (c.deleteIf key pred).1 := by
  unfold Cache.deleteIf
  cases hfe : c.findEntry key with
  | none => exact h
  | some m =>
    dsimp only
    by_cases hp : pred m.tag = true
    · rw [if_pos hp]
      exact inv_erase_entry h hfe
    · rw [if_neg hp]
      exact h

theorem inv_setTag (c : Cache) (key : String) (tag : Option Bytes) (h : Inv c) :
    Inv (c.setTag key tag).1 := by
  unfold Cache.setTag
  cases hfe : c.findEntry key with
  | none => exact h
  | some m =>
    dsimp only
    by_cases h0 : m.tag.isNone = true
    · rw [if_pos h0]
      set f : Meta → Meta := fun x => if x.key == key then { x with tag := tag } else x with hf
      have hk : ∀ x, (f x).key = x.key := by
        intro x; rw [hf]; by_cases hx : (x.key == key) = true <;> simp [hx]
      have hs : ∀ x, (f x).size = x.size := by
        intro x; rw [hf]; by_cases hx : (x.key == key) = true <;> simp [hx]
      have hpth : ∀ x, (f x).path = x.path := by
        intro x; rw [hf]; by_cases hx : (x.key == key) = true <;> simp [hx]
      have hst : ∀ x, (f x).status = x.status := by
        intro x; rw [hf]; by_cases hx : (x.key == key) = true <;> simp [hx]
      have hmap1 : (c.list.map f).map Meta.size = c.list.map Meta.size := by
        rw [List.map_map]
        exact List.map_congr_left (fun x _ => hs x)
      have hmap2 : (c.list.map f).map Meta.key = c.list.map Meta.key := by
        rw [List.map_map]
        exact List.map_congr_left (fun x _ => hk x)
      refine ⟨?_, ?_, ?_, ?_, ?_, ?_, ?_, h.disk_nodup, ?_, ?_, h.maxS, h.maxE⟩
      · dsimp only
        rw [hmap1]
        exact h.size_eq
      · dsimp only
        rw [List.length_map]
        exact h.cnt_eq
      · intro x hx
        obtain ⟨y, hy, rfl⟩ := List.mem_map.mp hx
        rw [hst y]
        exact h.ready y hy
      · dsimp only
        rw [hmap2]
        exact h.keys_nodup
      · intro x hx
        obtain ⟨y, hy, rfl⟩ := List.mem_map.mp hx
        rw [hs y]
        exact h.nonneg y hy
      · intro x hx
        obtain ⟨y, hy, rfl⟩ := List.mem_map.mp hx
        rw [hpth y, hk y]
        exact h.path_eq y hy
      · intro x hx
        obtain ⟨y, hy, rfl⟩ := List.mem_map.mp hx
        rw [hpth y]
        exact h.on_disk y hy
      · exact h.size_le
      · exact h.cnt_le
    · rw [if_neg h0]
      by_cases he : bytesEq m.tag tag = true
      · rw [he]
        simp only [if_true]
        exact h
      · have : bytesEq m.tag tag = false := by simpa using he
        rw [this]
        simp only [Bool.false_eq_true, if_false]
        exact h

theorem inv_clearAll (c : Cache) (h : Inv c) : Inv c.clearAll := by
  refine ⟨by simp [Cache.clearAll], by simp [Cache.clearAll], ?_, ?_, ?_, ?_, ?_, ?_, ?_, ?_,
    h.maxS, h.maxE⟩ <;>
    simp [Cache.clearAll]
  · exact le_of_lt h.maxS
  · exact le_of_lt h.maxE

theorem inv_new {dirExists : Bool} {sz cnt : Int} {d0 : List FPath} {c0 : Cache}
    (h : Cache.new dirExists sz cnt d0 = Except.ok c0) : Inv c0 := by
  unfold Cache.new at h
  by_cases hd : dirExists = true
  · rw [hd] at h
    simp only [Bool.not_true, Bool.false_eq_true, if_false] at h
    by_cases hsz : sz ≤ 0
    · rw [if_pos hsz] at h
      cases h
    · rw [if_neg hsz] at h
      by_cases hcnt : cnt ≤ 0
      · rw [if_pos hcnt] at h
        cases h
      · rw [if_neg hcnt] at h
        cases h
        refine ⟨by simp [Cache.clearAll], by simp [Cache.clearAll], ?_, ?_, ?_, ?_, ?_, ?_,
          ?_, ?_, by dsimp only [Cache.clearAll]; omega, by dsimp only [Cache.clearAll]; omega⟩ <;>
          simp [Cache.clearAll] <;> omega
  · have : dirExists = false := by simpa using hd
    rw [this] at h
    simp at h

theorem step_inv {c : Cache} (op : Op) (h : Inv c) : Inv (c.step op) := by
  cases op with
  | putOp key tag io =>
    have hp := putReader_inv key tag io h
    show Inv (match c.putReaderWithTag key tag io with
      | PutRes.done c' _ => c'
      | PutRes.diverge => c
      | PutRes.deadlock => c)
    cases hres : c.putReaderWithTag key tag io with
    | diverge => exact h
    | deadlock => exact h
    | done c' e => exact hp.2 c' e hres
  | getOp key => exact inv_getWithTag c key h
  | getTagOp key => exact h
  | setTagOp key tag => exact inv_setTag c key tag h
  | deleteOp key => exact inv_delete c key h
  | deleteIfOp key pred => exact inv_deleteIf c key pred h
  | clearOp => exact inv_clearAll c h

theorem run_inv {c : Cache} (ops : List Op) (h : Inv c) : Inv (c.run ops) := by
  induction ops generalizing c with
  | nil => exact h
  | cons op ops ih => exact ih (step_inv op h)

theorem reachable_inv {c : Cache} (h : Reachable c) : Inv c := by
  obtain ⟨sz, cnt, d0, c0, ops, _, hnew, rfl⟩ := h
  exact run_inv ops (inv_new hnew)

theorem getWithTag_absent {c : Cache} {key : String} (h : c.findEntry key = none) :
    (c.getWithTag key).err = some Err.notFound ∧ (c.getWithTag key).tag = none := by
  unfold Cache.getWithTag
  rw [h]
  exact ⟨rfl, rfl⟩

/-! ## Claim theorems: the blob-cache invariants and error behaviour -/

/-- C1: for every cache state reachable by any sequence of completed
`BlobStore` operations (`New`, the puts, the gets, `SetTag`, `Delete`,
`DeleteIf`, `Clear`), the `size` counter (`runningSize`) equals the sum
of the sizes of the Ready entries and the `numEntries` counter
(`runningCount`) equals the number of Ready entries. -/
theorem c1_accounting_invariant (c : Cache) (h : Reachable c) :
    c.size = ((c.list.filter (fun m => m.status == EntryStatus.ready)).map Meta.size).sum ∧
    c.numEntries =
      (((c.list.filter (fun m => m.status == EntryStatus.ready)).length : Nat) : Int) := by
  have hinv := reachable_inv h
  have hfilter : c.list.filter (fun m => m.status == EntryStatus.ready) = c.list := by
    rw [List.filter_eq_self]
    intro m hm
    rw [hinv.ready m hm]
    rfl
  rw [hfilter]
  exact ⟨hinv.size_eq, hinv.cnt_eq⟩

theorem c1_witness :
    ((emptyCache 10 40).run [Op.putOp "a" none (PutIo.content 3)]).size =
      ((((emptyCache 10 40).run [Op.putOp "a" none (PutIo.content 3)]).list.filter
        (fun m => m.status == EntryStatus.ready)).map Meta.size).sum ∧
    ((emptyCache 10 40).run [Op.putOp "a" none (PutIo.content 3)]).numEntries =
      (((((emptyCache 10 40).run [Op.putOp "a" none (PutIo.content 3)]).list.filter
        (fun m => m.status == EntryStatus.ready)).length : Nat) : Int) :=
  c1_accounting_invariant _
    ⟨10, 40, [], emptyCache 10 40, [Op.putOp "a" none (PutIo.content 3)],
      List.nodup_nil, rfl, rfl⟩

/-- C2: every put that completes from a reachable state leaves
`runningSize ≤ maxSizeBytes` and `runningCount ≤ maxEntryCount`
(this covers in particular every put other than a `TooLarge`
rejection, whose item is never admitted). -/
theorem c2_put_bounds (c : Cache) (key : String) (tag : Option Bytes) (io : PutIo)
    (h : Reachable c) {c' : Cache} {e : Option Err}
    (hput : c.putReaderWithTag key tag io = .done c' e) :
    c'.size ≤ c'.maxSize ∧ c'.numEntries ≤ c'.maxEntries :=
  have hinv := (putReader_inv key tag io (reachable_inv h)).2 c' e hput
  ⟨hinv.size_le, hinv.cnt_le⟩

theorem c2_witness :
    ((emptyCache 10 40).step (Op.putOp "a" none (PutIo.content 8))).size ≤
        ((emptyCache 10 40).step (Op.putOp "a" none (PutIo.content 8))).maxSize ∧
    ((emptyCache 10 40).step (Op.putOp "a" none (PutIo.content 8))).numEntries ≤
        ((emptyCache 10 40).step (Op.putOp "a" none (PutIo.content 8))).maxEntries :=
  @c2_put_bounds (emptyCache 10 40) "a" none (PutIo.content 8)
    ⟨10, 40, [], emptyCache 10 40, [], List.nodup_nil, rfl, rfl⟩
    ((emptyCache 10 40).step (Op.putOp "a" none (PutIo.content 8))) none
    (by decide)

/-- C3: every put that completes with an error from a reachable state
leaves the key absent from the index (the unlinked entry is marked
Deleted, never Ready), so a subsequent `Get` on that key is a miss
failing `ErrNotFound`. -/
theorem c3_failed_put_invisible (c : Cache) (key : String) (tag : Option Bytes) (io : PutIo)
    (h : Reachable c) {c' : Cache} {e : Err}
    (hput : c.putReaderWithTag key tag io = .done c' (some e)) :
    c'.findEntry key = none ∧
    (c'.getWithTag key).err = some Err.notFound ∧ (c'.getWithTag key).tag = none := by
  have hinv := reachable_inv h
  by_cases hnoop : c.isNoop key tag = true
  · rw [put_noop io hnoop] at hput
    cases hput
  · have hnoop' : c.isNoop key tag = false := by simpa using hnoop
    have habs : c'.findEntry key = none := by
      cases io with
      | readerFail =>
        rw [put_reader_deadlock key tag hnoop'] at hput
        cases hput
      | writeFail =>
        obtain ⟨c₁, heq, _, _, habs₁⟩ := put_fail_io key tag hinv hnoop'
        rw [heq] at hput
        cases hput
        exact habs₁
      | renameFail =>
        obtain ⟨c₁, heq, _, _, habs₁⟩ := put_fail_rename key tag hinv hnoop'
        rw [heq] at hput
        cases hput
      | content n =>
        by_cases hn : (n : Int) > c.maxSize
        · obtain ⟨c₁, heq, _, _, habs₁, _⟩ := put_tooLarge_spec key tag hinv hnoop' hn
          rw [heq] at hput
          cases hput
        · obtain ⟨rest', c₁, heq, _, _, _⟩ := put_content_ok key tag hinv hnoop' hn
          rw [heq] at hput
          cases hput
    exact ⟨habs, getWithTag_absent habs⟩

theorem c3_witness :
    (emptyCache 10 40).findEntry "k" = none ∧
    ((emptyCache 10 40).getWithTag "k").err = some Err.notFound ∧
    ((emptyCache 10 40).getWithTag "k").tag = none :=
  c3_failed_put_invisible (emptyCache 10 40) "k" none PutIo.writeFail
    ⟨10, 40, [], emptyCache 10 40, [], List.nodup_nil, rfl, rfl⟩
    (by decide :
      (emptyCache 10 40).putReaderWithTag "k" none PutIo.writeFail =
        .done (emptyCache 10 40) (some Err.ioErr))

/-- C5 (counterexample): in the hypothetical configuration the claim
quantifies over — an empty recency sequence while `n + size` still
exceeds the budget and the item itself fits — the admission step does
not terminate with an error: the model's `validate` yields the
divergence marker, i.e. the Go `for` loop spins forever, because
`evictLast` on an empty sequence returns `nil` without changing
anything. -/
theorem c5_counterexample :
    (8 : Int) ≤ emptyListOverBudget.maxSize ∧
    8 + emptyListOverBudget.size > emptyListOverBudget.maxSize ∧
    emptyListOverBudget.list = [] ∧
    emptyListOverBudget.validate (FPath.real "k") 8 = VRes.diverge := by
  refine ⟨by decide, by decide, by decide, ?_⟩
  decide

/-- C5 (amended): the empty-sequence-over-budget configuration never
arises from a reachable state — during a put the busy entry keeps the
sequence nonempty and the per-item check bounds the incoming size — so
every put's admission terminates (the model never yields the
divergence marker); in that configuration itself, however, the loop
spins instead of failing. -/
theorem c5_admission_terminates (c : Cache) (key : String) (tag : Option Bytes) (io : PutIo)
    (h : Reachable c) : c.putReaderWithTag key tag io ≠ .diverge :=
  (putReader_inv key tag io (reachable_inv h)).1

theorem c5_witness :
    (emptyCache 10 40).putReaderWithTag "k" none (PutIo.content 8) ≠ .diverge :=
  c5_admission_terminates (emptyCache 10 40) "k" none (PutIo.content 8)
    ⟨10, 40, [], emptyCache 10 40, [], List.nodup_nil, rfl, rfl⟩

/-- C4 (counterexample): a put whose content size (100 bytes) exceeds
`maxSizeBytes` (10) does NOT fail `TooLarge` when the key already holds
a Ready entry with an equal tag: the equal-tag no-op check at the top
of `PutReaderWithTag` returns success before any size check, and the
key remains present. -/
theorem c4_counterexample :
    ((emptyCache 10 40).step (Op.putOp "k" none (PutIo.content 1))).maxSize = 10 ∧
    (100 : Int) > 10 ∧
    ((emptyCache 10 40).step (Op.putOp "k" none (PutIo.content 1))).putReaderWithTag
        "k" none (PutIo.content 100) =
      .done ((emptyCache 10 40).step (Op.putOp "k" none (PutIo.content 1)))
        (none : Option Err) ∧
    ((emptyCache 10 40).step (Op.putOp "k" none (PutIo.content 1))).findEntry "k" ≠ none := by
  refine ⟨by decide, by decide, by decide, by decide⟩

/-- C4 (amended): every put that reaches admission — i.e. is not the
equal-tag no-op on an already-Ready entry — whose content size exceeds
`maxSizeBytes` is never admitted: the file staged for it is gone from
the directory, the key ends up absent from the index, and no other
entry is evicted on its behalf (the rest of the recency list is
exactly the original list with the key's entry unlinked).  The
operation does NOT fail `TooLarge`, however: the `validate` check
declares an if-scoped `err`, so its `goto Err` return reads the
function-level `err`, which is still nil on this path, and the put
completes with a nil error. -/
theorem c4_too_large_rejected (c : Cache) (key : String) (tag : Option Bytes) (n : Nat)
    (h : Reachable c) (hnoop : c.isNoop key tag = false) (hn : (n : Int) > c.maxSize) :
    ∃ c', c.putReaderWithTag key tag (.content n) = .done c' none ∧
      c'.findEntry key = none ∧ FPath.real key ∉ c'.disk ∧
      c'.list = eraseKey c.list key := by
  obtain ⟨c', heq, hinv, hlist, habs, hdisk⟩ :=
    put_tooLarge_spec key tag (reachable_inv h) hnoop hn
  exact ⟨c', heq, habs, hdisk, hlist⟩

theorem c4_witness :
    ∃ c', (emptyCache 10 40).putReaderWithTag "k" none (.content 100) =
        .done c' none ∧
      c'.findEntry "k" = none ∧ FPath.real "k" ∉ c'.disk ∧
      c'.list = eraseKey (emptyCache 10 40).list "k" :=
  c4_too_large_rejected (emptyCache 10 40) "k" none 100
    ⟨10, 40, [], emptyCache 10 40, [], List.nodup_nil, rfl, rfl⟩
    (by decide) (by decide)

/-! ## Exact behaviour of a put of a fresh key (for the LRU property) -/

theorem isNoop_absent {c : Cache} {key : String} (tag : Option Bytes)
    (habs : c.findEntry key = none) : c.isNoop key tag = false := by
  unfold Cache.isNoop
  rw [habs]

theorem size_nonneg_of_inv {c : Cache} (h : Inv c) : 0 ≤ c.size := by
  rw [h.size_eq]
  apply List.sum_nonneg
  intro x hx
  obtain ⟨m, hm, rfl⟩ := List.mem_map.mp hx
  exact h.nonneg m hm

theorem put_fresh_within {c : Cache} (key : String) (tag : Option Bytes) (n : Nat) (h : Inv c)
    (habs : c.findEntry key = none)
    (hsz : (n : Int) + c.size ≤ c.maxSize)
    (hcnt : c.numEntries + 1 ≤ c.maxEntries) :
    ∃ c', c.putReaderWithTag key tag (.content n) = .done c' none ∧ Inv c' ∧
      c'.list = mkReady key tag (n : Int) :: c.list ∧ c'.size = c.size + (n : Int) ∧
      c'.numEntries = c.numEntries + 1 ∧ c'.maxSize = c.maxSize ∧
      c'.maxEntries = c.maxEntries := by
  have hnoop : c.isNoop key tag = false := isNoop_absent tag habs
  have hsz0 : 0 ≤ c.size := size_nonneg_of_inv h
  obtain ⟨hmid, hdisk, hms, hme⟩ := addElement_putMid key tag h
  rw [eraseKey_of_none habs] at hmid
  set c1 := c.addElement key tag (FPath.real key) 0 .busy with hc1
  have hmid3 : MidInv key tag c.list
      { c1 with disk := insertPath c1.disk (FPath.real key) } := putMid_insert hmid
  set c3 : Cache := { c1 with disk := insertPath c1.disk (FPath.real key) } with hc3
  have hms3 : c3.maxSize = c.maxSize := hms
  have hme3 : c3.maxEntries = c.maxEntries := hme
  have hsize3 : c3.size = c.size := by
    rw [hmid3.size_eq, ← h.size_eq]
  have hcnt3 : c3.numEntries = c.numEntries + 1 := by
    rw [hmid3.cnt_eq, h.cnt_eq]
  have hval : c3.validate (FPath.real key) (n : Int) = .ok c3 := by
    unfold Cache.validate
    rw [if_neg (by omega : ¬ (n : Int) > c3.maxSize)]
    rw [sizeLoop_no_evict _ (by omega : ¬ (n : Int) + c3.size > c3.maxSize)]
    dsimp only
    rw [if_neg (by omega : ¬ c3.numEntries > c3.maxEntries)]
  obtain ⟨c5, hupd, hinv5, hlist5, hsize5, hcnt5, hms5, hme5, _, _, _⟩ :=
    updateElement_ready hmid3 (n : Int) (by positivity) (by omega) (by omega)
  refine ⟨c5, ?_, hinv5, hlist5, by omega, by omega, by omega, by omega⟩
  unfold Cache.putReaderWithTag
  rw [hnoop]
  simp only [Bool.false_eq_true, if_false]
  rw [← hc1, ← hc3, hval]
  simp only []
  rw [hupd]

theorem put_fresh_at_capacity {c : Cache} (key : String) (tag : Option Bytes) (n : Nat)
    (h : Inv c) (habs : c.findEntry key = none)
    (hsz : (n : Int) + c.size ≤ c.maxSize)
    (hcnteq : c.numEntries = c.maxEntries) :
    ∃ c', c.putReaderWithTag key tag (.content n) = .done c' none ∧ Inv c' ∧
      c'.list = mkReady key tag (n : Int) :: c.list.dropLast ∧
      c'.maxSize = c.maxSize ∧ c'.maxEntries = c.maxEntries := by
  have hnoop : c.isNoop key tag = false := isNoop_absent tag habs
  have hsz0 : 0 ≤ c.size := size_nonneg_of_inv h
  obtain ⟨hmid, hdisk, hms, hme⟩ := addElement_putMid key tag h
  rw [eraseKey_of_none habs] at hmid
  set c1 := c.addElement key tag (FPath.real key) 0 .busy with hc1
  have hmid3 : MidInv key tag c.list
      { c1 with disk := insertPath c1.disk (FPath.real key) } := putMid_insert hmid
  set c3 : Cache := { c1 with disk := insertPath c1.disk (FPath.real key) } with hc3
  have hms3 : c3.maxSize = c.maxSize := hms
  have hme3 : c3.maxEntries = c.maxEntries := hme
  have hsize3 : c3.size = c.size := by
    rw [hmid3.size_eq, ← h.size_eq]
  have hcnt3 : c3.numEntries = c.numEntries + 1 := by
    rw [hmid3.cnt_eq, h.cnt_eq]
  have hlne : c.list ≠ [] := by
    intro hcon
    have := h.cnt_eq
    rw [hcon] at this
    simp at this
    have := h.maxE
    omega
  obtain ⟨c4, hev, hmid4, hsz4, hcnt4, hms4, hme4, hszle4, _⟩ := evictLast_mid hmid3 hlne
  have hval : c3.validate (FPath.real key) (n : Int) = .ok c4 := by
    unfold Cache.validate
    rw [if_neg (by omega : ¬ (n : Int) > c3.maxSize)]
    rw [sizeLoop_no_evict _ (by omega : ¬ (n : Int) + c3.size > c3.maxSize)]
    dsimp only
    rw [if_pos (by omega : c3.numEntries > c3.maxEntries), hev]
  obtain ⟨c5, hupd, hinv5, hlist5, hsize5, hcnt5, hms5, hme5, _, _, _⟩ :=
    updateElement_ready hmid4 (n : Int) (by positivity) (by omega) (by omega)
  refine ⟨c5, ?_, hinv5, hlist5, by omega, by omega⟩
  unfold Cache.putReaderWithTag
  rw [hnoop]
  simp only [Bool.false_eq_true, if_false]
  rw [← hc1, ← hc3, hval]
  simp only []
  rw [hupd]

theorem run_fresh_puts (ps : List (String × Nat)) :
    ∀ (c : Cache), Inv c →
      (∀ p ∈ ps, ∀ m ∈ c.list, m.key ≠ p.1) →
      (ps.map Prod.fst).Nodup →
      c.size + (ps.map (fun p => (p.2 : Int))).sum ≤ c.maxSize →
      c.numEntries + (ps.length : Int) ≤ c.maxEntries →
      Inv (c.run (ps.map (fun p => Op.putOp p.1 none (PutIo.content p.2)))) ∧
      (c.run (ps.map (fun p => Op.putOp p.1 none (PutIo.content p.2)))).list
        = (ps.map (fun p => mkReady p.1 none (p.2 : Int))).reverse ++ c.list ∧
      (c.run (ps.map (fun p => Op.putOp p.1 none (PutIo.content p.2)))).size
        = c.size + (ps.map (fun p => (p.2 : Int))).sum ∧
      (c.run (ps.map (fun p => Op.putOp p.1 none (PutIo.content p.2)))).numEntries
        = c.numEntries + ps.length ∧
      (c.run (ps.map (fun p => Op.putOp p.1 none (PutIo.content p.2)))).maxSize = c.maxSize ∧
      (c.run (ps.map (fun p => Op.putOp p.1 none (PutIo.content p.2)))).maxEntries
        = c.maxEntries := by
  induction ps with
  | nil =>
    intro c hInv _ _ _ _
    refine ⟨hInv, by simp [Cache.run], by simp [Cache.run], by simp [Cache.run],
      by simp [Cache.run], by simp [Cache.run]⟩
  | cons p ps ih =>
    intro c hInv hfresh hnd hsz hcnt
    have htail0 : 0 ≤ (ps.map (fun p => (p.2 : Int))).sum := by
      apply List.sum_nonneg
      intro x hx
      obtain ⟨q, _, rfl⟩ := List.mem_map.mp hx
      positivity
    have habs : c.findEntry p.1 = none :=
      findEntry_none_of_keys (fun m hm => hfresh p (List.mem_cons_self p ps) m hm)
    have hheadsum : (((p :: ps).map (fun p => (p.2 : Int))).sum)
        = (p.2 : Int) + (ps.map (fun p => (p.2 : Int))).sum := by simp
    obtain ⟨c1, heq, hinv1, hlist1, hsize1, hcnt1, hms1, hme1⟩ :=
      put_fresh_within p.1 none p.2 hInv habs
        (by rw [hheadsum] at hsz; omega)
        (by simp only [List.length_cons] at hcnt; push_cast at hcnt; omega)
    have hstep : c.step (Op.putOp p.1 none (PutIo.content p.2)) = c1 := by
      show (match c.putReaderWithTag p.1 none (PutIo.content p.2) with
        | PutRes.done c' _ => c'
        | PutRes.diverge => c
        | PutRes.deadlock => c) = c1
      rw [heq]
    have hrun : c.run ((p :: ps).map (fun p => Op.putOp p.1 none (PutIo.content p.2)))
        = c1.run (ps.map (fun p => Op.putOp p.1 none (PutIo.content p.2))) := by
      simp only [List.map_cons, Cache.run, List.foldl_cons, hstep]
    have hnd' : (ps.map Prod.fst).Nodup := (List.nodup_cons.mp hnd).2
    have hhead_notin : p.1 ∉ ps.map Prod.fst := (List.nodup_cons.mp hnd).1
    have hfresh1 : ∀ q ∈ ps, ∀ m ∈ c1.list, m.key ≠ q.1 := by
      intro q hq m hm
      rw [hlist1] at hm
      rcases List.mem_cons.mp hm with rfl | hm
      · simp only [mkReady]
        intro hcon
        exact hhead_notin (hcon ▸ List.mem_map_of_mem Prod.fst hq)
      · exact hfresh q (List.mem_cons_of_mem p hq) m hm
    obtain ⟨hI, hL, hS, hN, hMS, hME⟩ := ih c1 hinv1 hfresh1 hnd'
      (by rw [hsize1, hms1]; rw [hheadsum] at hsz; omega)
      (by rw [hcnt1, hme1]; simp only [List.length_cons] at hcnt; push_cast at hcnt ⊢; omega)
    rw [hrun]
    refine ⟨hI, ?_, ?_, ?_, ?_, ?_⟩
    · rw [hL, hlist1]
      simp
    · rw [hS, hsize1, hheadsum]
      omega
    · rw [hN, hcnt1]
      simp only [List.length_cons]
      push_cast
      omega
    · rw [hMS, hms1]
    · rw [hME, hme1]

theorem findEntry_ne_none_of_mem {c : Cache} {key : String} {m : Meta}
    (hm : m ∈ c.list) (hk : m.key = key) : c.findEntry key ≠ none := by
  have hs : (c.list.find? (fun x => x.key == key)).isSome :=
    List.find?_isSome.mpr ⟨m, hm, by simp [hk]⟩
  exact Option.isSome_iff_ne_none.mp hs

/-- C6: (i) with entry capacity for exactly `N` distinct items
(`maxEntryCount = N`, byte budget ample for all items) and no
intervening `Get` calls, inserting `N + 1` distinct keys evicts the
first-inserted key and keeps all later ones; (ii) at every reachable
state `Keys()` is exactly the set of currently-present keys, sorted
lexicographically with no duplicates; (iii) the scenario with
`maxSizeBytes = 10`, `maxEntryCount = 40`: `Put a (8B)`, `Put b (2B)`
give keys `[a,b]`; `Put c (1B)` evicts `a`, giving `[b,c]`;
`Put f (10B)` evicts `b` and `c`, giving `[f]`. -/
theorem c6_lru_keys :
    (∀ (c0 : Cache) (p0 : String × Nat) (ps : List (String × Nat)),
      Inv c0 → c0.list = [] →
      ((p0 :: ps).map Prod.fst).Nodup →
      (((p0 :: ps).map (fun p => (p.2 : Int))).sum ≤ c0.maxSize) →
      c0.maxEntries = (ps.length : Int) →
      (c0.run ((p0 :: ps).map (fun p => Op.putOp p.1 none (PutIo.content p.2)))).findEntry p0.1
          = none ∧
      (∀ p ∈ ps,
        (c0.run ((p0 :: ps).map (fun p => Op.putOp p.1 none (PutIo.content p.2)))).findEntry
          p.1 ≠ none)) ∧
    (∀ c : Cache, Reachable c →
      List.Sorted strLeP c.keysOf ∧ c.keysOf.Nodup ∧
      (∀ k, k ∈ c.keysOf ↔ c.findEntry k ≠ none)) ∧
    ((emptyCache 10 40).run [Op.putOp "a" none (.content 8)]).keysOf = ["a"] ∧
    ((emptyCache 10 40).run [Op.putOp "a" none (.content 8),
        Op.putOp "b" none (.content 2)]).keysOf = ["a", "b"] ∧
    ((emptyCache 10 40).run [Op.putOp "a" none (.content 8), Op.putOp "b" none (.content 2),
        Op.putOp "c" none (.content 1)]).keysOf = ["b", "c"] ∧
    ((emptyCache 10 40).run [Op.putOp "a" none (.content 8), Op.putOp "b" none (.content 2),
        Op.putOp "c" none (.content 1), Op.putOp "f" none (.content 10)]).keysOf = ["f"] := by
  refine ⟨?_, ?_, by decide, by decide, by decide, by decide⟩
  · intro c0 p0 ps hInv hnil hnd hsum hcap
    have hpsne : ps ≠ [] := by
      intro hcon
      rw [hcon] at hcap
      simp at hcap
      have := hInv.maxE
      omega
    obtain hnil2 | ⟨init, plast, hps⟩ := ps.eq_nil_or_concat
    · exact absurd hnil2 hpsne
    rw [List.concat_eq_append] at hps
    subst hps
    have hsize0 : c0.size = 0 := by
      have := hInv.size_eq
      rw [hnil] at this
      simpa using this
    have hcnt0 : c0.numEntries = 0 := by
      have := hInv.cnt_eq
      rw [hnil] at this
      simpa using this
    have hlast0 : (0 : Int) ≤ (plast.2 : Int) := by positivity
    have hsum_split : ((p0 :: (init ++ [plast])).map (fun p => (p.2 : Int))).sum
        = ((p0 :: init).map (fun p => (p.2 : Int))).sum + (plast.2 : Int) := by
      simp
      omega
    have hnd_full := hnd
    have hmapfst : ((p0 :: (init ++ [plast])).map Prod.fst)
        = p0.1 :: (init.map Prod.fst ++ [plast.1]) := by simp
    rw [hmapfst] at hnd_full
    have hp0_notin : p0.1 ∉ init.map Prod.fst ++ [plast.1] := (List.nodup_cons.mp hnd_full).1
    have hrest_nd : (init.map Prod.fst ++ [plast.1]).Nodup := (List.nodup_cons.mp hnd_full).2
    have hprefix_nd : ((p0 :: init).map Prod.fst).Nodup := by
      simp only [List.map_cons]
      refine List.nodup_cons.mpr ⟨?_, ?_⟩
      · intro hmem
        exact hp0_notin (List.mem_append.mpr (Or.inl hmem))
      · exact hrest_nd.sublist (List.sublist_append_left _ _)
    have hplast_notin : plast.1 ∉ init.map Prod.fst := by
      intro hmem
      have := List.disjoint_of_nodup_append hrest_nd
      exact this hmem (by simp)
    obtain ⟨hI1, hL1, hS1, hN1, hMS1, hME1⟩ := run_fresh_puts (p0 :: init) c0 hInv
      (by rw [hnil]; intro p _ m hm; simp at hm)
      hprefix_nd
      (by rw [hsum_split] at hsum; omega)
      (by
        rw [hcnt0, hcap]
        simp only [List.length_cons, List.length_append, List.length_singleton]
        push_cast
        omega)
    set ops1 := (p0 :: init).map (fun p => Op.putOp p.1 none (PutIo.content p.2)) with hops1
    set cf1 := c0.run ops1 with hcf1
    have hlist_cf1 : cf1.list
        = ((init.map (fun p => mkReady p.1 none (p.2 : Int))).reverse
            ++ [mkReady p0.1 none (p0.2 : Int)]) := by
      rw [hL1, hnil]
      simp
    have habs_last : cf1.findEntry plast.1 = none := by
      apply findEntry_none_of_keys
      rw [hlist_cf1]
      intro m hm
      rcases List.mem_append.mp hm with hm | hm
      · obtain ⟨q, hq, rfl⟩ := List.mem_map.mp (List.mem_reverse.mp hm)
        simp only [mkReady]
        intro hcon
        exact hplast_notin (hcon ▸ List.mem_map_of_mem Prod.fst hq)
      · simp only [List.mem_singleton] at hm
        subst hm
        simp only [mkReady]
        intro hcon
        exact hp0_notin (by rw [hcon]; simp)
    have hcnteq : cf1.numEntries = cf1.maxEntries := by
      rw [hN1, hME1, hcnt0, hcap]
      simp only [List.length_cons, List.length_append, List.length_singleton,
        List.length_nil]
      push_cast
      omega
    obtain ⟨cF, heqF, hinvF, hlistF, hmsF, hmeF⟩ :=
      put_fresh_at_capacity plast.1 none plast.2 hI1 habs_last
        (by
          rw [hS1, hMS1, hsize0]
          rw [hsum_split] at hsum
          omega)
        hcnteq
    have hstepF : cf1.step (Op.putOp plast.1 none (PutIo.content plast.2)) = cF := by
      show (match cf1.putReaderWithTag plast.1 none (PutIo.content plast.2) with
        | PutRes.done c' _ => c'
        | PutRes.diverge => cf1
        | PutRes.deadlock => cf1) = cF
      rw [heqF]
    have hrunF : c0.run ((p0 :: (init ++ [plast])).map
        (fun p => Op.putOp p.1 none (PutIo.content p.2))) = cF := by
      have hsplit : (p0 :: (init ++ [plast])).map
          (fun p => Op.putOp p.1 none (PutIo.content p.2))
          = ops1 ++ [Op.putOp plast.1 none (PutIo.content plast.2)] := by
        rw [hops1]
        simp
      rw [hsplit]
      show (ops1 ++ [Op.putOp plast.1 none (PutIo.content plast.2)]).foldl Cache.step c0 = cF
      rw [List.foldl_append]
      show cf1.step (Op.putOp plast.1 none (PutIo.content plast.2)) = cF
      exact hstepF
    have hlistF' : cF.list = mkReady plast.1 none (plast.2 : Int)
        :: (init.map (fun p => mkReady p.1 none (p.2 : Int))).reverse := by
      rw [hlistF, hlist_cf1, List.dropLast_concat]
    rw [hrunF]
    constructor
    · apply findEntry_none_of_keys
      rw [hlistF']
      intro m hm
      rcases List.mem_cons.mp hm with rfl | hm
      · simp only [mkReady]
        intro hcon
        exact hp0_notin (by rw [← hcon]; simp)
      · obtain ⟨q, hq, rfl⟩ := List.mem_map.mp (List.mem_reverse.mp hm)
        simp only [mkReady]
        intro hcon
        exact (List.nodup_cons.mp hnd_full).1 (List.mem_append.mpr
          (Or.inl (hcon ▸ List.mem_map_of_mem Prod.fst hq)))
    · intro p hp
      rcases List.mem_append.mp hp with hp | hp
      · refine @findEntry_ne_none_of_mem _ _ (mkReady p.1 none (p.2 : Int)) ?_ rfl
        rw [hlistF']
        exact List.mem_cons_of_mem _
          (List.mem_reverse.mpr (List.mem_map_of_mem _ hp))
      · simp only [List.mem_singleton] at hp
        subst hp
        refine @findEntry_ne_none_of_mem _ _ (mkReady p.1 none (p.2 : Int)) ?_ rfl
        rw [hlistF']
        exact List.mem_cons_self _ _
  · intro c h
    have hinv := reachable_inv h
    have hperm : (c.keysOf).Perm (c.list.map Meta.key) := by
      unfold Cache.keysOf
      have h2 : (c.list.reverse.map Meta.key) = (c.list.map Meta.key).reverse :=
        List.map_reverse ..
      rw [h2]
      exact (List.perm_insertionSort strLeP _).trans (List.reverse_perm _)
    refine ⟨List.sorted_insertionSort strLeP _, ?_, fun k => ?_⟩
    · exact hperm.nodup_iff.mpr hinv.keys_nodup
    · rw [hperm.mem_iff]
      constructor
      · intro hmem
        obtain ⟨m, hm, rfl⟩ := List.mem_map.mp hmem
        exact findEntry_ne_none_of_mem hm rfl
      · intro hne
        cases hfe : c.findEntry k with
        | none => exact absurd hfe hne
        | some m =>
          have := findEntry_key hfe
          exact this ▸ List.mem_map_of_mem Meta.key (findEntry_mem hfe)

theorem c6_witness :
    ((emptyCache 100 1).run ([(("x" : String), (1 : Nat)), ("y", 2)].map
        (fun p => Op.putOp p.1 none (PutIo.content p.2)))).findEntry "x" = none ∧
    ((emptyCache 100 1).run ([(("x" : String), (1 : Nat)), ("y", 2)].map
        (fun p => Op.putOp p.1 none (PutIo.content p.2)))).findEntry "y" ≠ none := by
  have h := c6_lru_keys.1 (emptyCache 100 1) ("x", 1) [("y", 2)]
    (inv_new (rfl : Cache.new true 100 1 [] = Except.ok (emptyCache 100 1)))
    rfl (by decide) (by decide) (by decide)
  exact ⟨h.1, h.2 ("y", 2) (by decide)⟩

/-! ## `SetTag` behaviour -/

theorem find?_map_pres {l : List Meta} {k : String} {m : Meta} (g : Meta → Meta)
    (hk : ∀ x, (g x).key = x.key)
    (h : l.find? (fun x => x.key == k) = some m) :
    (l.map g).find? (fun x => x.key == k) = some (g m) := by
  induction l with
  | nil => simp at h
  | cons a l ih =>
    have hga : ((g a).key == k) = (a.key == k) := by rw [hk a]
    by_cases hp : (a.key == k) = true
    · simp only [List.find?, hp] at h
      cases h
      simp only [List.map_cons, List.find?, hga, hp]
    · have hp' : (a.key == k) = false := by simpa using hp
      simp only [List.find?, hp'] at h
      simp only [List.map_cons, List.find?, hga, hp']
      exact ih h

theorem setTag_assign {c : Cache} {k : String} {m : Meta} (t : Option Bytes)
    (hfe : c.findEntry k = some m) (h0 : m.tag = none) :
    (c.setTag k t).2 = none ∧
    (c.setTag k t).1.findEntry k = some { m with tag := t } := by
  unfold Cache.setTag
  rw [hfe]
  dsimp only
  rw [if_pos (by simp [h0])]
  refine ⟨rfl, ?_⟩
  have hres := find?_map_pres (fun x => if x.key == k then { x with tag := t } else x)
    (by intro x; by_cases hx : (x.key == k) = true <;> simp [hx]) hfe
  have hgm : (if (m.key == k) = true then { m with tag := t } else m) = { m with tag := t } := by
    rw [if_pos (by simp [findEntry_key hfe])]
  unfold Cache.findEntry
  dsimp only
  rw [hres]
  dsimp only
  rw [hgm]

theorem setTag_tagged {c : Cache} {k : String} {m : Meta} (t : Option Bytes)
    (hfe : c.findEntry k = some m) (hne : m.tag ≠ none) :
    c.setTag k t = (if bytesEq m.tag t then (c, none) else (c, some Err.alreadyTagged)) := by
  unfold Cache.setTag
  rw [hfe]
  dsimp only
  rw [if_neg (by simpa [Option.isNone_iff_eq_none] using hne)]

/-- C7: `SetTag` semantics: a missing key fails `ErrNotFound`; an
untagged entry gets the tag assigned; re-tagging with a
`bytes.Equal` tag is a successful no-op; a different tag fails
`ErrAlreadyTagged`, leaving the stored tag unchanged.  Consequently,
`SetTag k T1` on an untagged entry followed by `SetTag k T1` succeeds
idempotently, while the follow-up `SetTag k T2` with `T1 ≠ T2` fails
`ErrAlreadyTagged` with the stored tag still `T1`. -/
theorem c7_setTag_write_once :
    (∀ (c : Cache) (k : String) (t : Option Bytes), c.findEntry k = none →
      c.setTag k t = (c, some Err.notFound)) ∧
    (∀ (c : Cache) (k : String) (t : Option Bytes) (m : Meta), c.findEntry k = some m →
      m.tag = none →
      (c.setTag k t).2 = none ∧ (c.setTag k t).1.findEntry k = some { m with tag := t }) ∧
    (∀ (c : Cache) (k : String) (t : Option Bytes) (m : Meta), c.findEntry k = some m →
      m.tag ≠ none → bytesEq m.tag t = true →
      c.setTag k t = (c, none)) ∧
    (∀ (c : Cache) (k : String) (t : Option Bytes) (m : Meta), c.findEntry k = some m →
      m.tag ≠ none → bytesEq m.tag t = false →
      c.setTag k t = (c, some Err.alreadyTagged)) ∧
    (∀ (c : Cache) (k : String) (t1 : Bytes) (m : Meta), c.findEntry k = some m →
      m.tag = none →
      (c.setTag k (some t1)).1.setTag k (some t1) = ((c.setTag k (some t1)).1, none)) ∧
    (∀ (c : Cache) (k : String) (t1 t2 : Bytes) (m : Meta), c.findEntry k = some m →
      m.tag = none → t1 ≠ t2 →
      (c.setTag k (some t1)).1.setTag k (some t2)
          = ((c.setTag k (some t1)).1, some Err.alreadyTagged) ∧
      ((c.setTag k (some t1)).1.setTag k (some t2)).1.findEntry k
          = some { m with tag := some t1 }) := by
  refine ⟨?_, ?_, ?_, ?_, ?_, ?_⟩
  · intro c k t habs
    unfold Cache.setTag
    rw [habs]
  · intro c k t m hfe h0
    exact setTag_assign t hfe h0
  · intro c k t m hfe hne hb
    rw [setTag_tagged t hfe hne, if_pos hb]
  · intro c k t m hfe hne hb
    rw [setTag_tagged t hfe hne, if_neg (by simp [hb])]
  · intro c k t1 m hfe h0
    have h1 := setTag_assign (some t1) hfe h0
    rw [setTag_tagged (some t1) h1.2 (by simp), if_pos (by simp [bytesEq])]
  · intro c k t1 t2 m hfe h0 hne12
    have h1 := setTag_assign (some t1) hfe h0
    have hb : bytesEq (some t1) (some t2) = false := by
      simp [bytesEq]
      exact hne12
    constructor
    · rw [setTag_tagged (some t2) h1.2 (by simp), if_neg (by simp [hb])]
    · rw [setTag_tagged (some t2) h1.2 (by simp), if_neg (by simp [hb])]
      exact h1.2

/-! ## Chunk-layer toolkit -/

theorem find?_map_stable {α : Type} (p : α → Bool) (g : α → α)
    (hp : ∀ x, p (g x) = p x) :
    ∀ {l : List α} {m : α}, l.find? p = some m → (l.map g).find? p = some (g m) := by
  intro l
  induction l with
  | nil => intro m h; simp at h
  | cons a l ih =>
    intro m h
    by_cases hpa : p a = true
    · simp only [List.find?, hpa] at h
      cases h
      simp only [List.map_cons, List.find?, hp a, hpa]
    · have hpa' : p a = false := by simpa using hpa
      simp only [List.find?, hpa'] at h
      simp only [List.map_cons, List.find?, hp a, hpa']
      exact ih h

theorem find?_eraseP_incompat {α : Type} (p1 p2 : α → Bool)
    (hinc : ∀ x, p2 x = true → p1 x = false) :
    ∀ (l : List α), (l.eraseP p1).find? p2 = l.find? p2 := by
  intro l
  induction l with
  | nil => simp
  | cons a l ih =>
    by_cases h1 : p1 a = true
    · rw [List.eraseP_cons_of_pos h1]
      have h2 : p2 a = false := by
        by_cases hq : p2 a = true
        · rw [hinc a hq] at h1; cases h1
        · simpa using hq
      rw [List.find?_cons_of_neg _ (by simp [h2])]
    · rw [List.eraseP_cons_of_neg (by simpa using h1)]
      by_cases h2 : p2 a = true
      · rw [List.find?_cons_of_pos _ h2, List.find?_cons_of_pos _ h2]
      · rw [List.find?_cons_of_neg _ (by simpa using h2),
          List.find?_cons_of_neg _ (by simpa using h2)]
        exact ih

theorem findFile_setFile {cc : ChunkCache} {key : String} {fe : FileEntry} (newfe : FileEntry)
    (h : cc.findFile key = some fe) :
    (cc.setFile key newfe).findFile key = some newfe := by
  unfold ChunkCache.findFile at h ⊢
  unfold ChunkCache.setFile
  cases hf : cc.chunks.find? (fun p => p.1 == key) with
  | none => rw [hf] at h; simp at h
  | some pr =>
    have hstable := find?_map_stable (fun p => p.1 == key)
      (fun p => if p.1 == key then (key, newfe) else p)
      (by
        intro x
        by_cases hx : (x.1 == key) = true
        · simp [hx]
        · simp [hx])
      hf
    dsimp only
    rw [hstable]
    have hq := List.find?_some hf
    simp [hq]

theorem findFile_removeFile {cc : ChunkCache} {key : String}
    (hnd : (cc.chunks.map Prod.fst).Nodup) :
    (cc.removeFile key).findFile key = none := by
  unfold ChunkCache.findFile ChunkCache.removeFile
  dsimp only
  cases hf : cc.chunks.find? (fun p => p.1 == key) with
  | none =>
    rw [List.eraseP_of_forall_not (by
      intro x hx
      have := List.find?_eq_none.mp hf x hx
      simpa using this)]
    rw [hf]
    rfl
  | some pr =>
    obtain ⟨l₁, l₂, hl, h1, he⟩ := find_decomp _ _ _ hf
    rw [he]
    have hkey : pr.1 = key := by simpa using List.find?_some hf
    have hnone : (l₁ ++ l₂).find? (fun p => p.1 == key) = none := by
      apply List.find?_eq_none.mpr
      intro x hx
      rcases List.mem_append.mp hx with hx | hx
      · simpa using h1 x hx
      · rw [hl] at hnd
        simp only [List.map_append, List.map_cons] at hnd
        have h2 : (pr.1 :: List.map Prod.fst l₂).Nodup :=
          hnd.sublist (List.sublist_append_right _ _)
        have h3 : pr.1 ∉ List.map Prod.fst l₂ := by
          have := h2.not_mem
          simpa using this
        simp only [beq_iff_eq]
        intro hcon
        exact h3 (by rw [hkey, ← hcon] at *; exact List.mem_map_of_mem Prod.fst hx)
    rw [hnone]
    rfl

theorem delChunkOffset_untracks {cc : ChunkCache} {key : String} {off : Int}
    (hnd : (cc.chunks.map Prod.fst).Nodup)
    (hoffnd : ∀ fe, cc.findFile key = some fe → fe.offset.Nodup) :
    ∀ fe', (cc.delChunkOffset key off).1.findFile key = some fe' → off ∉ fe'.offset := by
  intro fe' h'
  unfold ChunkCache.delChunkOffset at h'
  cases hf : cc.findFile key with
  | none =>
    rw [hf] at h'
    dsimp only at h'
    rw [hf] at h'
    cases h'
  | some fe =>
    rw [hf] at h'
    dsimp only at h'
    by_cases hin : off ∈ fe.offset
    · rw [if_pos hin] at h'
      by_cases hemp : (fe.offset.erase off).isEmpty = true
      · rw [if_pos hemp] at h'
        dsimp only at h'
        rw [findFile_removeFile hnd] at h'
        cases h'
      · rw [if_neg hemp] at h'
        dsimp only at h'
        rw [findFile_setFile _ hf] at h'
        cases h'
        exact (hoffnd fe hf).not_mem_erase
    · rw [if_neg hin] at h'
      dsimp only at h'
      rw [hf] at h'
      cases h'
      exact hin

/-- C10: when the underlying blob-store entry of `(fileKey, offset)` is
absent (for example after independent eviction), `ChunkCache.Get`
returns `ErrUntagged` rather than the not-found error, because the
nil-tag check precedes the propagation of the delegate's error; the
stale offset is still reconciled out of the aggregator's bookkeeping
by the underlying `GetWithTag` call. -/
theorem c10_get_missing_chunk (cc : ChunkCache) (key : String) (off : Int)
    (habs : cc.cache.findEntry (chunkKey key off) = none)
    (hnd : (cc.chunks.map Prod.fst).Nodup)
    (hoffnd : ∀ fe, cc.findFile key = some fe → fe.offset.Nodup) :
    (cc.get key off).2.2 = some Err.untagged ∧
    ∀ fe', (cc.get key off).1.findFile key = some fe' → off ∉ fe'.offset := by
  have hg := getWithTag_absent habs
  unfold ChunkCache.get ChunkCache.getWithTag
  dsimp only
  rw [hg.1, hg.2]
  dsimp only
  constructor
  · rfl
  · intro fe' h'
    refine @delChunkOffset_untracks { cc with cache :=
      (cc.cache.getWithTag (chunkKey key off)).cache } key off hnd ?_ fe' h'
    intro fe hfe
    exact hoffnd fe hfe

theorem c10_witness :
    (sampleChunkState.get "f" 5).2.2 = some Err.untagged ∧
    ∀ fe', (sampleChunkState.get "f" 5).1.findFile "f" = some fe' →
      (5 : Int) ∉ fe'.offset :=
  c10_get_missing_chunk sampleChunkState "f" 5 (by decide) (by decide)
    (by intro fe hfe; cases hfe; decide)

theorem c7_witness :
    (((emptyCache 10 40).step (Op.putOp "k" none (PutIo.content 2))).setTag "k"
        (some [1])).2 = none ∧
    (((emptyCache 10 40).step (Op.putOp "k" none (PutIo.content 2))).setTag "k"
        (some [1])).1.findEntry "k"
      = some { mkReady "k" none 2 with tag := some [1] } := by
  have h := c7_setTag_write_once.2.1
    ((emptyCache 10 40).step (Op.putOp "k" none (PutIo.content 2))) "k" (some [1])
    (mkReady "k" none 2) (by decide) (by decide)
  exact h

theorem find?_map_comm {k : String} (g : Meta → Meta)
    (hk : ∀ x, (g x).key = x.key) :
    ∀ (l : List Meta),
      (l.map g).find? (fun x => x.key == k) = (l.find? (fun x => x.key == k)).map g := by
  intro l
  induction l with
  | nil => simp
  | cons a l ih =>
    have hga : ((g a).key == k) = (a.key == k) := by rw [hk a]
    by_cases hp : (a.key == k) = true
    · simp [List.find?, hga, hp]
    · have hp' : (a.key == k) = false := by simpa using hp
      simp only [List.map_cons, List.find?, hga, hp']
      exact ih

theorem setTag_findEntry_ne {c : Cache} {k : String} (t : Option Bytes) {q : String}
    (hne : q ≠ k) :
    (c.setTag k t).1.findEntry q = c.findEntry q := by
  unfold Cache.setTag
  cases hfe : c.findEntry k with
  | none => rfl
  | some m =>
    dsimp only
    by_cases h0 : m.tag.isNone = true
    · rw [if_pos h0]
      unfold Cache.findEntry
      dsimp only
      rw [find?_map_comm _ (by intro x; by_cases hx : (x.key == k) = true <;> simp [hx]) _]
      cases hf' : c.list.find? (fun x => x.key == q) with
      | none => rfl
      | some w =>
        have hq := List.find?_some hf'
        have hkq : w.key = q := by simpa using hq
        simp [hkq, hne]
    · rw [if_neg h0]
      by_cases hb : bytesEq m.tag t = true
      · rw [if_pos hb]
      · rw [if_neg hb]

theorem getTag_of_findEntry {c : Cache} {k : String} {m : Meta}
    (h : c.findEntry k = some m) :
    c.getTag k = (m.tag, none) := by
  unfold Cache.getTag
  rw [h]

theorem getTag_congr {c c' : Cache} {k : String} (h : c'.findEntry k = c.findEntry k) :
    c'.getTag k = c.getTag k := by
  unfold Cache.getTag
  rw [h]

theorem suc_fold (key : String) (tag : Option Bytes) :
    ∀ (l : List Int) (c : Cache) (kept : List Int) (cnt : Nat),
      (l.map (chunkKey key)).Nodup →
      (∀ o ∈ l, ∃ m, c.findEntry (chunkKey key o) = some m ∧
        (m.tag = none ∨ bytesEq m.tag tag = true)) →
      ∃ c', l.foldl (sucStep key tag) (some (c, kept, cnt)) =
          some (c', kept, cnt + l.countP (fun o => ((c.getTag (chunkKey key o)).1).isNone)) ∧
        (∀ o ∈ l, c'.getTag (chunkKey key o) =
            (if ((c.getTag (chunkKey key o)).1).isNone then tag
             else (c.getTag (chunkKey key o)).1, none)) ∧
        (∀ q, (∀ o ∈ l, q ≠ chunkKey key o) → c'.findEntry q = c.findEntry q) := by
  intro l
  induction l with
  | nil =>
    intro c kept cnt _ _
    exact ⟨c, by simp, by simp, fun q _ => rfl⟩
  | cons o l ih =>
    intro c kept cnt hnd hok
    obtain ⟨m, hm, hmt⟩ := hok o (by simp)
    have hgt : c.getTag (chunkKey key o) = (m.tag, none) := getTag_of_findEntry hm
    have hhead : chunkKey key o ∉ l.map (chunkKey key) := by
      simp only [List.map_cons, List.nodup_cons] at hnd
      exact hnd.1
    have hndl : (l.map (chunkKey key)).Nodup := by
      simp only [List.map_cons, List.nodup_cons] at hnd
      exact hnd.2
    have hne : ∀ o' ∈ l, chunkKey key o ≠ chunkKey key o' := by
      intro o' ho' hc
      exact hhead (hc ▸ List.mem_map_of_mem (chunkKey key) ho')
    by_cases h0 : m.tag = none
    · -- untagged chunk: the embedded SetTag assigns the tag and it is counted
      have has := setTag_assign tag hm h0
      rcases hset : c.setTag (chunkKey key o) tag with ⟨c1, e1⟩
      have he1 : e1 = none := by
        have h2 := has.1
        rw [hset] at h2
        exact h2
      subst he1
      have hstep : sucStep key tag (some (c, kept, cnt)) o = some (c1, kept, cnt + 1) := by
        unfold sucStep
        dsimp only
        rw [hgt]
        dsimp only
        rw [if_pos (by simp [h0]), hset]
      have hc1f : c1.findEntry (chunkKey key o) = some { m with tag := tag } := by
        have h2 := has.2
        rw [hset] at h2
        exact h2
      have hfr : ∀ q, q ≠ chunkKey key o → c1.findEntry q = c.findEntry q := by
        intro q hq
        have h2 := @setTag_findEntry_ne c (chunkKey key o) tag q hq
        rw [hset] at h2
        exact h2
      have hok1 : ∀ o' ∈ l, ∃ m', c1.findEntry (chunkKey key o') = some m' ∧
          (m'.tag = none ∨ bytesEq m'.tag tag = true) := by
        intro o' ho'
        obtain ⟨m', hm', hmt'⟩ := hok o' (by simp [ho'])
        exact ⟨m', by rw [hfr _ (Ne.symm (hne o' ho'))]; exact hm', hmt'⟩
      obtain ⟨c', hfold, htags, hframe⟩ := ih c1 kept (cnt + 1) hndl hok1
      have hgt1 : ∀ o' ∈ l, c1.getTag (chunkKey key o') = c.getTag (chunkKey key o') := by
        intro o' ho'
        exact getTag_congr (hfr _ (Ne.symm (hne o' ho')))
      refine ⟨c', ?_, ?_, ?_⟩
      · rw [List.foldl_cons, hstep, hfold]
        have hcnt : l.countP (fun o' => ((c1.getTag (chunkKey key o')).1).isNone)
            = l.countP (fun o' => ((c.getTag (chunkKey key o')).1).isNone) := by
          apply List.countP_congr
          intro o' ho'
          rw [hgt1 o' ho']
        rw [hcnt]
        have hN : ((c.getTag (chunkKey key o)).1).isNone = true := by
          rw [hgt]
          simp [h0]
        simp only [List.countP_cons, hN, Option.some.injEq, Prod.mk.injEq]
        refine ⟨trivial, trivial, ?_⟩
        simp only [if_pos]
        omega
      · intro o' ho'
        rcases List.mem_cons.mp ho' with rfl | ho'
        · have hfx : c'.findEntry (chunkKey key o') = c1.findEntry (chunkKey key o') :=
            hframe _ (fun o'' ho'' => hne o'' ho'')
          rw [getTag_congr hfx, getTag_of_findEntry hc1f, hgt]
          simp [h0]
        · rw [htags o' ho', hgt1 o' ho']
      · intro q hq
        rw [hframe q (fun o'' ho'' => hq o'' (by simp [ho''])),
          hfr q (hq o (by simp))]
    · -- chunk already tagged, necessarily with a bytes-equal tag: skipped
      have hbeq : bytesEq m.tag tag = true := hmt.resolve_left h0
      have hstep : sucStep key tag (some (c, kept, cnt)) o = some (c, kept, cnt) := by
        unfold sucStep
        dsimp only
        rw [hgt]
        dsimp only
        rw [if_neg (by simp [Option.isNone_iff_eq_none, h0]), if_neg (by simp [hbeq])]
      obtain ⟨c', hfold, htags, hframe⟩ :=
        ih c kept cnt hndl (fun o' ho' => hok o' (by simp [ho']))
      refine ⟨c', ?_, ?_, ?_⟩
      · rw [List.foldl_cons, hstep, hfold]
        have hN : ((c.getTag (chunkKey key o)).1).isNone = false := by
          rw [hgt]
          cases htag : m.tag with
          | none => exact absurd htag h0
          | some t => rfl
        simp only [List.countP_cons, hN, Option.some.injEq, Prod.mk.injEq]
        refine ⟨trivial, trivial, ?_⟩
        simp
      · intro o' ho'
        rcases List.mem_cons.mp ho' with rfl | ho'
        · have hfx : c'.findEntry (chunkKey key o') = c.findEntry (chunkKey key o') :=
            hframe _ (fun o'' ho'' => hne o'' ho'')
          rw [getTag_congr hfx, hgt]
          simp [Option.isNone_iff_eq_none, h0]
        · exact htags o' ho'
      · intro q hq
        exact hframe q (fun o'' ho'' => hq o'' (by simp [ho'']))

/-- C8: `SetUntaggedChunks(fileKey, tag)` on a tracked file whose
offsets all have healthy chunks tagged either not at all or
`bytes.Equal` to `tag`: if the file's `commonTag` is set and differs
from `tag` it fails `ErrIncoherentTag` with the state (hence every
chunk tag) unchanged; otherwise it succeeds, newly tags exactly the
currently-untagged offsets (counting them), leaves already-tagged
offsets unchanged, keeps the offset set, and sets `commonTag` for a
non-nil `tag`.  The concrete scenario: after untagged chunk puts at
offsets `0`, `10`, `20` the call with `"tag"` returns `3`; after a
further untagged put at `30` it returns `1`; a following call with
`"other"` fails `ErrIncoherentTag`, all four chunk tags still
`"tag"`. -/
theorem c8_setUntaggedChunks (cc : ChunkCache) (key : String) (tag : Option Bytes)
    (fe : FileEntry)
    (hfe : cc.findFile key = some fe)
    (hnd : (fe.offset.map (chunkKey key)).Nodup)
    (hok : ∀ o ∈ fe.offset, (cc.cache.getTag (chunkKey key o)).2 = none ∧
      ((cc.cache.getTag (chunkKey key o)).1 = none ∨
        bytesEq (cc.cache.getTag (chunkKey key o)).1 tag = true)) :
    ((fe.commonTag.isSome && !bytesEq fe.commonTag tag) = true →
      cc.setUntaggedChunks key tag = SucRes.done cc 0 (some Err.incoherentTag)) ∧
    ((fe.commonTag.isSome && !bytesEq fe.commonTag tag) = false →
      ∃ cc', cc.setUntaggedChunks key tag =
          SucRes.done cc'
            (fe.offset.countP (fun o => ((cc.cache.getTag (chunkKey key o)).1).isNone)) none ∧
        cc'.findFile key = some { offset := fe.offset, commonTag := if tag.isSome then tag else fe.commonTag } ∧
        ∀ o ∈ fe.offset, cc'.cache.getTag (chunkKey key o) =
          (if ((cc.cache.getTag (chunkKey key o)).1).isNone then tag
           else (cc.cache.getTag (chunkKey key o)).1, none)) ∧
    (c8S3.setUntaggedChunks "file" (some c8Tag) = SucRes.done c8S4 3 none ∧
     c8S5.setUntaggedChunks "file" (some c8Tag) = SucRes.done c8S6 1 none ∧
     c8S6.setUntaggedChunks "file" (some c8Other) = SucRes.done c8S6 0 (some Err.incoherentTag) ∧
     ∀ o ∈ [(0 : Int), 10, 20, 30], c8S6.cache.getTag (chunkKey "file" o) = (some c8Tag, none)) := by
  refine ⟨?_, ?_, by decide, by decide, by decide, by decide⟩
  · intro h
    simp only [ChunkCache.setUntaggedChunks, hfe]
    rw [if_pos h]
  · intro h
    have hok' : ∀ o ∈ fe.offset, ∃ m, cc.cache.findEntry (chunkKey key o) = some m ∧
        (m.tag = none ∨ bytesEq m.tag tag = true) := by
      intro o ho
      obtain ⟨h1, h2⟩ := hok o ho
      cases hf : cc.cache.findEntry (chunkKey key o) with
      | none =>
        have hg : cc.cache.getTag (chunkKey key o) = (none, some Err.notFound) := by
          unfold Cache.getTag
          rw [hf]
        rw [hg] at h1
        simp at h1
      | some m =>
        refine ⟨m, rfl, ?_⟩
        rw [getTag_of_findEntry hf] at h2
        exact h2
    obtain ⟨c', hfold, htags, hframe⟩ := suc_fold key tag fe.offset cc.cache fe.offset 0 hnd hok'
    have hff : (fe.offset.isEmpty && !fe.offset.isEmpty) = false := by
      cases fe.offset.isEmpty <;> rfl
    have hrun : cc.setUntaggedChunks key tag =
        SucRes.done (({ cc with cache := c' }).setFile key
          { offset := fe.offset, commonTag := (if tag.isSome then { fe with commonTag := tag } else fe).commonTag })
          (0 + fe.offset.countP (fun o => ((cc.cache.getTag (chunkKey key o)).1).isNone)) none := by
      simp only [ChunkCache.setUntaggedChunks, hfe]
      rw [if_neg (by simp [h]), hfold]
      dsimp only
      rw [if_neg (by simp [hff])]
    rw [Nat.zero_add] at hrun
    refine ⟨_, hrun, ?_, ?_⟩
    · have hfe' : ({ cc with cache := c' } : ChunkCache).findFile key = some fe := hfe
      have h2 := findFile_setFile
        ({ offset := fe.offset, commonTag := (if tag.isSome then { fe with commonTag := tag } else fe).commonTag }) hfe'
      rw [h2]
      cases htag : tag <;> simp
    · intro o ho
      exact htags o ho

theorem c8_witness :
    c8S3.findFile "file" = some c8FE ∧
    c8S3.setUntaggedChunks "file" (some c8Tag) = SucRes.done c8S4 3 none :=
  ⟨by decide,
   (c8_setUntaggedChunks c8S3 "file" (some c8Tag) c8FE (by decide) (by decide)
      (by decide)).2.2.1⟩

theorem findEntry_eraseKey_self {c : Cache} {k : String}
    (hnd : (c.list.map Meta.key).Nodup) :
    (eraseKey c.list k).find? (fun x => x.key == k) = none := by
  apply List.find?_eq_none.mpr
  intro x hx
  simpa using eraseKey_key_ne hnd x hx

theorem deleteIf_pos {c : Cache} {k : String} {pred : Option Bytes → Bool} {m : Meta}
    (h : c.findEntry k = some m) (hp : pred m.tag = true) :
    c.deleteIf k pred =
      ({ c with size := c.size - m.size, numEntries := c.numEntries - 1,
                disk := c.disk.erase m.path, list := eraseKey c.list k }, true, none) := by
  unfold Cache.deleteIf
  rw [h]
  dsimp only
  rw [if_pos hp]

theorem deleteIf_neg {c : Cache} {k : String} {pred : Option Bytes → Bool} {m : Meta}
    (h : c.findEntry k = some m) (hp : pred m.tag = false) :
    c.deleteIf k pred = (c, false, none) := by
  unfold Cache.deleteIf
  rw [h]
  dsimp only
  rw [if_neg (by simp [hp])]

theorem deleteIf_findEntry_ne {c : Cache} {k : String} {pred : Option Bytes → Bool}
    {q : String} (hne : q ≠ k) :
    (c.deleteIf k pred).1.findEntry q = c.findEntry q := by
  unfold Cache.deleteIf
  cases hf : c.findEntry k with
  | none => rfl
  | some m =>
    dsimp only
    by_cases hp : pred m.tag = true
    · rw [if_pos hp]
      unfold Cache.findEntry
      dsimp only
      rw [eraseKey]
      exact find?_eraseP_incompat _ _
        (by intro x hx
            have hxq : x.key = q := by simpa using hx
            simp [hxq, hne]) c.list
    · rw [if_neg hp]

theorem deleteIf_keys_nodup {c : Cache} {k : String} {pred : Option Bytes → Bool}
    (hnd : (c.list.map Meta.key).Nodup) :
    ((c.deleteIf k pred).1.list.map Meta.key).Nodup := by
  unfold Cache.deleteIf
  cases hf : c.findEntry k with
  | none => exact hnd
  | some m =>
    dsimp only
    by_cases hp : pred m.tag = true
    · rw [if_pos hp]
      exact eraseKey_keys_nodup hnd
    · rw [if_neg hp]
      exact hnd

theorem dismiss_fold (key : String) (tag : Option Bytes) (off : Int) :
    ∀ (l : List Int) (c : Cache) (kept : List Int),
      (l.map (chunkKey key)).Nodup →
      kept.Nodup →
      (c.list.map Meta.key).Nodup →
      (∀ o ∈ l, o ≠ off → ∃ m, c.findEntry (chunkKey key o) = some m) →
      ∃ c'' kept',
        l.foldl (dismissStep key tag off) (c, kept) = (c'', kept') ∧
        (∀ x, x ∈ kept' ↔ x ∈ kept ∧ ¬(x ∈ l ∧ x ≠ off ∧
            bytesEq ((c.getTag (chunkKey key x)).1) tag = false)) ∧
        (∀ o ∈ l, o ≠ off → bytesEq ((c.getTag (chunkKey key o)).1) tag = false →
            c''.findEntry (chunkKey key o) = none) ∧
        (∀ q, (∀ o ∈ l, q ≠ chunkKey key o) → c''.findEntry q = c.findEntry q) ∧
        (∀ o ∈ l, bytesEq ((c.getTag (chunkKey key o)).1) tag = true →
            c''.findEntry (chunkKey key o) = c.findEntry (chunkKey key o)) := by
  intro l
  induction l with
  | nil =>
    intro c kept _ _ _ _
    exact ⟨c, kept, rfl, by simp, by simp, fun q _ => rfl, by simp⟩
  | cons o l ih =>
    intro c kept hnd hknd hcnd hpres
    have hhead : chunkKey key o ∉ l.map (chunkKey key) := by
      simp only [List.map_cons, List.nodup_cons] at hnd
      exact hnd.1
    have hndl : (l.map (chunkKey key)).Nodup := by
      simp only [List.map_cons, List.nodup_cons] at hnd
      exact hnd.2
    have hne : ∀ o' ∈ l, chunkKey key o ≠ chunkKey key o' := by
      intro o' ho' hc
      exact hhead (hc ▸ List.mem_map_of_mem (chunkKey key) ho')
    by_cases hoo : o = off
    · -- the offset being tagged itself: skipped
      subst hoo
      have hstep : dismissStep key tag o (c, kept) o = (c, kept) := by
        unfold dismissStep
        rw [if_pos (by simp)]
      obtain ⟨c'', kept', hfold, hmem, hdel, hfr, hret⟩ :=
        ih c kept hndl hknd hcnd (fun o' ho' hoff => hpres o' (by simp [ho']) hoff)
      refine ⟨c'', kept', ?_, ?_, ?_, ?_, ?_⟩
      · rw [List.foldl_cons, hstep, hfold]
      · intro x
        rw [hmem x]
        constructor
        · rintro ⟨hxk, hnb⟩
          refine ⟨hxk, ?_⟩
          rintro ⟨hxl, hxoff, hbad⟩
          rcases List.mem_cons.mp hxl with rfl | hxl'
          · exact hxoff rfl
          · exact hnb ⟨hxl', hxoff, hbad⟩
        · rintro ⟨hxk, hnb⟩
          exact ⟨hxk, fun ⟨hxl', hxoff, hbad⟩ => hnb ⟨by simp [hxl'], hxoff, hbad⟩⟩
      · intro o' ho' hoff hbad
        rcases List.mem_cons.mp ho' with rfl | ho''
        · exact absurd rfl hoff
        · exact hdel o' ho'' hoff hbad
      · intro q hq
        exact hfr q (fun o' ho' => hq o' (by simp [ho']))
      · intro o' ho' hbeq
        rcases List.mem_cons.mp ho' with rfl | ho''
        · exact hfr _ (fun o'' ho'' => hne o'' ho'')
        · exact hret o' ho'' hbeq
    · -- another offset: its chunk entry exists
      obtain ⟨m, hm⟩ := hpres o (by simp) hoo
      have hgt : c.getTag (chunkKey key o) = (m.tag, none) := getTag_of_findEntry hm
      by_cases hbad : bytesEq m.tag tag = false
      · -- disagreeing tag: the chunk is deleted and the offset dropped
        have hp : (fun t => !bytesEq t tag) m.tag = true := by simp [hbad]
        have hdelr := @deleteIf_pos c (chunkKey key o) (fun t => !bytesEq t tag) m hm hp
        have hstep : dismissStep key tag off (c, kept) o =
            ({ c with size := c.size - m.size, numEntries := c.numEntries - 1,
                      disk := c.disk.erase m.path,
                      list := eraseKey c.list (chunkKey key o) }, kept.erase o) := by
          unfold dismissStep
          rw [if_neg (by simp [hoo])]
          dsimp only
          rw [hdelr]
        have hcdelf : ({ c with size := c.size - m.size, numEntries := c.numEntries - 1, disk := c.disk.erase m.path, list := eraseKey c.list (chunkKey key o) } : Cache).findEntry (chunkKey key o) = none := by
          unfold Cache.findEntry
          exact findEntry_eraseKey_self hcnd
        have hfr0 : ∀ q, q ≠ chunkKey key o →
            ({ c with size := c.size - m.size, numEntries := c.numEntries - 1, disk := c.disk.erase m.path, list := eraseKey c.list (chunkKey key o) } : Cache).findEntry q = c.findEntry q := by
          intro q hq
          have h2 := @deleteIf_findEntry_ne c (chunkKey key o)
            (fun t => !bytesEq t tag) q hq
          rw [hdelr] at h2
          exact h2
        have hcnd1 : (({ c with size := c.size - m.size, numEntries := c.numEntries - 1, disk := c.disk.erase m.path, list := eraseKey c.list (chunkKey key o) } : Cache).list.map Meta.key).Nodup := eraseKey_keys_nodup hcnd
        have hpres1 : ∀ o' ∈ l, o' ≠ off →
            ∃ m', ({ c with size := c.size - m.size, numEntries := c.numEntries - 1, disk := c.disk.erase m.path, list := eraseKey c.list (chunkKey key o) } : Cache).findEntry (chunkKey key o') = some m' := by
          intro o' ho' hoff
          obtain ⟨m', hm'⟩ := hpres o' (by simp [ho']) hoff
          exact ⟨m', by rw [hfr0 _ (Ne.symm (hne o' ho'))]; exact hm'⟩
        have hgt1 : ∀ o' ∈ l,
            ({ c with size := c.size - m.size, numEntries := c.numEntries - 1, disk := c.disk.erase m.path, list := eraseKey c.list (chunkKey key o) } : Cache).getTag (chunkKey key o') = c.getTag (chunkKey key o') := by
          intro o' ho'
          exact getTag_congr (hfr0 _ (Ne.symm (hne o' ho')))
        obtain ⟨c'', kept', hfold, hmem, hdel, hfr, hret⟩ :=
          ih _ (kept.erase o) hndl (hknd.erase o) hcnd1 hpres1
        refine ⟨c'', kept', ?_, ?_, ?_, ?_, ?_⟩
        · rw [List.foldl_cons, hstep, hfold]
        · intro x
          rw [hmem x, List.Nodup.mem_erase_iff hknd]
          constructor
          · rintro ⟨⟨hxo, hxk⟩, hnb⟩
            refine ⟨hxk, ?_⟩
            rintro ⟨hxl, hxoff, hbadx⟩
            rcases List.mem_cons.mp hxl with rfl | hxl'
            · exact hxo rfl
            · exact hnb ⟨hxl', hxoff, by rw [hgt1 x hxl']; exact hbadx⟩
          · rintro ⟨hxk, hnb⟩
            have hxo : x ≠ o := by
              rintro rfl
              exact hnb ⟨by simp, hoo, by rw [hgt]; exact hbad⟩
            refine ⟨⟨hxo, hxk⟩, ?_⟩
            rintro ⟨hxl', hxoff, hbadx⟩
            exact hnb ⟨by simp [hxl'], hxoff, by rw [hgt1 x hxl'] at hbadx; exact hbadx⟩
        · intro o' ho' hoff hbadx
          rcases List.mem_cons.mp ho' with rfl | ho''
          · rw [hfr _ (fun o'' ho'' => hne o'' ho'')]
            exact hcdelf
          · exact hdel o' ho'' hoff (by rw [← hgt1 o' ho''] at hbadx; exact hbadx)
        · intro q hq
          rw [hfr q (fun o' ho' => hq o' (by simp [ho'])), hfr0 q (hq o (by simp))]
        · intro o' ho' hbeq
          rcases List.mem_cons.mp ho' with rfl | ho''
          · rw [hgt] at hbeq
            exact absurd hbeq (by simp [hbad])
          · have h5 := hret o' ho'' (by rw [hgt1 o' ho'']; exact hbeq)
            rw [h5, hfr0 _ (Ne.symm (hne o' ho''))]
      · -- a bytes-equal tag: the chunk and the offset are retained
        have hbeq : bytesEq m.tag tag = true := by simpa using hbad
        have hp : (fun t => !bytesEq t tag) m.tag = false := by simp [hbeq]
        have hdelr := @deleteIf_neg c (chunkKey key o) (fun t => !bytesEq t tag) m hm hp
        have hstep : dismissStep key tag off (c, kept) o = (c, kept) := by
          unfold dismissStep
          rw [if_neg (by simp [hoo])]
          dsimp only
          rw [hdelr]
        obtain ⟨c'', kept', hfold, hmem, hdel, hfr, hret⟩ :=
          ih c kept hndl hknd hcnd (fun o' ho' hoff => hpres o' (by simp [ho']) hoff)
        refine ⟨c'', kept', ?_, ?_, ?_, ?_, ?_⟩
        · rw [List.foldl_cons, hstep, hfold]
        · intro x
          rw [hmem x]
          constructor
          · rintro ⟨hxk, hnb⟩
            refine ⟨hxk, ?_⟩
            rintro ⟨hxl, hxoff, hbadx⟩
            rcases List.mem_cons.mp hxl with rfl | hxl'
            · rw [hgt] at hbadx
              exact absurd hbadx (by simp [hbeq])
            · exact hnb ⟨hxl', hxoff, hbadx⟩
          · rintro ⟨hxk, hnb⟩
            exact ⟨hxk, fun hx => hnb ⟨by simp [hx.1], hx.2.1, hx.2.2⟩⟩
        · intro o' ho' hoff hbadx
          rcases List.mem_cons.mp ho' with rfl | ho''
          · rw [hgt] at hbadx
            exact absurd hbadx (by simp [hbeq])
          · exact hdel o' ho'' hoff hbadx
        · intro q hq
          exact hfr q (fun o' ho' => hq o' (by simp [ho']))
        · intro o' ho' hb2
          rcases List.mem_cons.mp ho' with rfl | ho''
          · exact hfr _ (fun o'' ho'' => hne o'' ho'')
          · exact hret o' ho'' hb2

theorem setTag_keys {c : Cache} {k : String} {t : Option Bytes} :
    (c.setTag k t).1.list.map Meta.key = c.list.map Meta.key := by
  unfold Cache.setTag
  cases hf : c.findEntry k with
  | none => rfl
  | some m =>
    dsimp only
    by_cases h0 : m.tag.isNone = true
    · rw [if_pos h0]
      dsimp only
      rw [List.map_map]
      refine List.map_congr_left (fun a _ => ?_)
      by_cases hx : (a.key == k) = true
      · have hx' : a.key = k := by simpa using hx
        simp [hx']
      · have hx' : ¬ a.key = k := by simpa using hx
        simp [hx']
    · rw [if_neg h0]
      by_cases hb : bytesEq m.tag t = true
      · rw [if_pos hb]
      · rw [if_neg hb]

/-- C9 (counterexample): the dismissal predicate of the coherence step is
`!bytes.Equal(t, tag)`, and `bytes.Equal` identifies a nil tag with the
empty one; so after two untagged chunk puts of `"f"` at offsets `0` and
`1`, `SetTag("f", 0, []byte{})` — a non-nil tag — succeeds, yet the sibling
chunk at offset `1`, whose blob-store tag is absent (nil) and hence not
equal to the set tag as an optional value, is neither deleted from the
blob store nor removed from the offsets set. -/
theorem c9_counterexample :
    (c9S.setTag "f" 0 (some [])).2 = none ∧
    (some ([] : Bytes)) ≠ none ∧
    (c9S.cache.getTag (chunkKey "f" 1)).1 = none ∧
    ((c9S.setTag "f" 0 (some [])).1).cache.getTag (chunkKey "f" 1) = (none, none) ∧
    ((c9S.setTag "f" 0 (some [])).1).findFile "f"
      = some { offset := [0, 1], commonTag := some [] } := by
  decide

/-- C9 (amended): when the coherence step `ChunkCache.SetTag(fileKey,
offset, tag)` runs from a state whose tracked chunks are all present in
the blob store and succeeds — the chunk at `offset` being untagged or
tagged `bytes.Equal` to `tag` — then afterwards: every other offset of
the same file whose chunk tag is not `bytes.Equal` to `tag` (a nil tag
being equal to an empty one) has been deleted from the blob store and
dropped from the FileEntry offset set; every offset whose chunk tag is
`bytes.Equal` to `tag` is retained with its blob entry untouched; and
`commonTag` becomes `tag` when `tag` is non-nil. -/
theorem c9_dismissal (cc : ChunkCache) (key : String) (off : Int) (tag : Option Bytes)
    (fe : FileEntry)
    (hfe : cc.findFile key = some fe)
    (hoff : off ∈ fe.offset)
    (hndk : (fe.offset.map (chunkKey key)).Nodup)
    (hndo : fe.offset.Nodup)
    (hclist : (cc.cache.list.map Meta.key).Nodup)
    (hpres : ∀ o ∈ fe.offset, (cc.cache.getTag (chunkKey key o)).2 = none)
    (hsucc : (cc.cache.getTag (chunkKey key off)).1 = none ∨
      bytesEq ((cc.cache.getTag (chunkKey key off)).1) tag = true) :
    (cc.setTag key off tag).2 = none ∧
    (∃ fe', (cc.setTag key off tag).1.findFile key = some fe' ∧
      fe'.commonTag = (if tag.isSome then tag else fe.commonTag) ∧
      (∀ x, x ∈ fe'.offset ↔ x ∈ fe.offset ∧ (x = off ∨
        bytesEq ((cc.cache.getTag (chunkKey key x)).1) tag = true))) ∧
    (∀ o ∈ fe.offset, o ≠ off →
      bytesEq ((cc.cache.getTag (chunkKey key o)).1) tag = false →
      (cc.setTag key off tag).1.cache.findEntry (chunkKey key o) = none) ∧
    (∀ o ∈ fe.offset, o ≠ off →
      bytesEq ((cc.cache.getTag (chunkKey key o)).1) tag = true →
      (cc.setTag key off tag).1.cache.findEntry (chunkKey key o)
        = cc.cache.findEntry (chunkKey key o)) := by
  have hexm : ∀ o ∈ fe.offset, ∃ m, cc.cache.findEntry (chunkKey key o) = some m := by
    intro o ho
    have h1 := hpres o ho
    cases hf : cc.cache.findEntry (chunkKey key o) with
    | none =>
      have hg : cc.cache.getTag (chunkKey key o) = (none, some Err.notFound) := by
        unfold Cache.getTag
        rw [hf]
      rw [hg] at h1
      simp at h1
    | some m => exact ⟨m, rfl⟩
  have hinj : ∀ o ∈ fe.offset, o ≠ off → chunkKey key o ≠ chunkKey key off := by
    intro o ho hne heq
    exact hne (List.inj_on_of_nodup_map hndk ho hoff heq)
  obtain ⟨m0, hm0⟩ := hexm off hoff
  have hgt0 : cc.cache.getTag (chunkKey key off) = (m0.tag, none) := getTag_of_findEntry hm0
  have hmain : ∃ c1 : Cache,
      (∀ q, q ≠ chunkKey key off → c1.findEntry q = cc.cache.findEntry q) ∧
      (c1.list.map Meta.key).Nodup ∧
      cc.setTag key off tag =
        (({ cc with cache := (fe.offset.foldl (dismissStep key tag off) (c1, fe.offset)).1 }).setFile key
           { offset := (fe.offset.foldl (dismissStep key tag off) (c1, fe.offset)).2,
             commonTag := (if tag.isSome then { fe with commonTag := tag } else fe).commonTag },
         none) := by
    by_cases h0 : m0.tag = none
    · have has := setTag_assign tag hm0 h0
      rcases hset : cc.cache.setTag (chunkKey key off) tag with ⟨c1, e1⟩
      have he1 : e1 = none := by
        have h2 := has.1
        rw [hset] at h2
        exact h2
      subst he1
      refine ⟨c1, ?_, ?_, ?_⟩
      · intro q hq
        have h2 := @setTag_findEntry_ne cc.cache (chunkKey key off) tag q hq
        rw [hset] at h2
        exact h2
      · have h2 := @setTag_keys cc.cache (chunkKey key off) tag
        rw [hset] at h2
        rw [h2]
        exact hclist
      · simp only [ChunkCache.setTag, ChunkCache.unlockedSetTag, hfe]
        rw [if_pos hoff]
        rw [hgt0]
        dsimp only
        rw [if_pos (by simp [h0]), hset]
    · have hbeq : bytesEq m0.tag tag = true := by
        rcases hsucc with h1 | h1
        · rw [hgt0] at h1
          exact absurd h1 h0
        · rw [hgt0] at h1
          exact h1
      refine ⟨cc.cache, fun q _ => rfl, hclist, ?_⟩
      simp only [ChunkCache.setTag, ChunkCache.unlockedSetTag, hfe]
      rw [if_pos hoff]
      rw [hgt0]
      dsimp only
      rw [if_neg (by simp [Option.isNone_iff_eq_none, h0]), if_neg (by simp [hbeq])]
  obtain ⟨c1, hfr1, hcnd1, hrun⟩ := hmain
  have hgt1 : ∀ o ∈ fe.offset, o ≠ off →
      c1.getTag (chunkKey key o) = cc.cache.getTag (chunkKey key o) := by
    intro o ho hne
    exact getTag_congr (hfr1 _ (hinj o ho hne))
  have hpres1 : ∀ o ∈ fe.offset, o ≠ off → ∃ m, c1.findEntry (chunkKey key o) = some m := by
    intro o ho hne
    obtain ⟨m, hm⟩ := hexm o ho
    exact ⟨m, by rw [hfr1 _ (hinj o ho hne)]; exact hm⟩
  obtain ⟨c'', kept', hfold, hmem, hdel, hfr, hret⟩ :=
    dismiss_fold key tag off fe.offset c1 fe.offset hndk hndo hcnd1 hpres1
  rw [hfold] at hrun
  refine ⟨by rw [hrun], ?_, ?_, ?_⟩
  · have hfe' : ({ cc with cache := c'' } : ChunkCache).findFile key = some fe := hfe
    refine ⟨{ offset := kept', commonTag := (if tag.isSome then { fe with commonTag := tag } else fe).commonTag },
      ?_, ?_, ?_⟩
    · rw [hrun]
      exact findFile_setFile _ hfe'
    · cases htag : tag <;> simp
    · intro x
      dsimp only
      rw [hmem x]
      constructor
      · rintro ⟨hxk, hnb⟩
        refine ⟨hxk, ?_⟩
        by_cases hxoff : x = off
        · exact Or.inl hxoff
        · right
          cases hb : bytesEq ((cc.cache.getTag (chunkKey key x)).1) tag with
          | false =>
            exact absurd ⟨hxk, hxoff, by rw [hgt1 x hxk hxoff]; exact hb⟩ hnb
          | true => rfl
      · rintro ⟨hxk, hor⟩
        refine ⟨hxk, ?_⟩
        rintro ⟨hxl, hxoff, hbad⟩
        rcases hor with rfl | hbeq
        · exact hxoff rfl
        · rw [hgt1 x hxk hxoff] at hbad
          rw [hbeq] at hbad
          cases hbad
  · intro o ho hne hbad
    have h2 := hdel o ho hne (by rw [hgt1 o ho hne]; exact hbad)
    rw [hrun]
    exact h2
  · intro o ho hne hbeq
    have h2 := hret o ho (by rw [hgt1 o ho hne]; exact hbeq)
    rw [hrun]
    exact h2.trans (hfr1 _ (hinj o ho hne))

theorem c9_witness :
    c9S.findFile "f" = some { offset := [0, 1], commonTag := none } ∧
    (c9S.setTag "f" 0 (some [1])).2 = none ∧
    (∀ o ∈ [(0 : Int), 1], o ≠ 0 →
      bytesEq ((c9S.cache.getTag (chunkKey "f" o)).1) (some [1]) = false →
      (c9S.setTag "f" 0 (some [1])).1.cache.findEntry (chunkKey "f" o) = none) := by
  have h := c9_dismissal c9S "f" 0 (some [1]) { offset := [0, 1], commonTag := none }
    (by decide) (by decide) (by decide) (by decide) (by decide) (by decide) (by decide)
  exact ⟨by decide, h.1, h.2.2.1⟩

end Stash
